import Mathlib

set_option maxRecDepth 200000

/-!
Verification of the pig-behavior analysis server
(src/bantai-baboy/pig_behavior_analysis_WEBSOCKET.py) against its
natural-language specification.

The external collaborators (YOLO detector, MobileNet classifier, OpenCV
decoding) are out of scope per the spec; the embedding takes their outputs
as inputs: each analyzed frame supplies a list of observations (raw tracker
id, centroid, optional classified behavior label; the label is absent when
the crop is empty and no classification is produced).

The source computes a displacement as a real-valued Euclidean distance
(math.sqrt) between consecutive centroids.  Square roots of rationals are
irrational in general, so the batch loop is parametrized by the
displacement function `dist`; every theorem about the loop structure holds
for an arbitrary `dist`, and concrete runs instantiate `dist` with
`dist1 p q = |p.1 - q.1|`, which coincides with the Euclidean distance
whenever the vertical coordinate is unchanged (lemma
`euclidean_eq_dist1_of_fixed_y` below).
-/

namespace PigSpec

/-- BEHAVIOR_CLASSES: the seven classifier labels.  The Python list
happens to be in alphabetical (lexical) order. -/
inductive Behavior
  | Drinking | Eating | Investigating | Lying | Moutend | Sleeping | Walking
deriving DecidableEq

/-- The list BEHAVIOR_CLASSES in source order (which is lexical order). -/
def BEHAVIOR_CLASSES : List Behavior :=
  [.Drinking, .Eating, .Investigating, .Lying, .Moutend, .Sleeping, .Walking]

/-- RESTING_BEHAVIORS membership test: the set is the Python set
of Lying and Sleeping; a missing classification (None) is not a member. -/
def isResting : Option Behavior → Bool
  | some Behavior.Lying => true
  | some Behavior.Sleeping => true
  | _ => false

/-! ### Python dict / deque helpers

Python dicts keep insertion order; we model them as association lists
where a fresh key is appended at the end and an existing key is updated
in place. -/

/-- Lookup in an insertion-ordered association list (first match). -/
def alookup {κ α : Type} [DecidableEq κ] : List (κ × α) → κ → Option α
  | [], _ => none
  | (k, v) :: rest, key => if k = key then some v else alookup rest key

/-- Update an existing key in place, or append a fresh key at the end
(Python dict assignment semantics). -/
def aset {κ α : Type} [DecidableEq κ] : List (κ × α) → κ → α → List (κ × α)
  | [], key, v => [(key, v)]
  | (k, w) :: rest, key, v =>
      if k = key then (k, v) :: rest else (k, w) :: aset rest key v

/-- Lookup with a default value (defaultdict read). -/
def agetD {κ α : Type} [DecidableEq κ] (l : List (κ × α)) (key : κ) (d : α) : α :=
  (alookup l key).getD d

/-- Append on a collections.deque with a maxlen: push right, evict left
past the capacity. -/
def pushBounded {α : Type} (cap : Nat) (l : List α) (x : α) : List α :=
  let l2 := l ++ [x]
  if cap < l2.length then l2.drop (l2.length - cap) else l2

/-- Add an element to a Python set modelled as a duplicate-free list
(membership test, then insert). -/
def insertSet (l : List Nat) (x : Nat) : List Nat :=
  if x ∈ l then l else l ++ [x]

/-- Arithmetic mean of a list of rationals (sum / len, as in the source's
mean_disp computation). -/
def meanQ (l : List ℚ) : ℚ := l.sum / (l.length : ℚ)

/-- Population variance of a list of rationals, exactly the source's
variance computation: sum of squared deviations from the mean, over len. -/
def varQ (l : List ℚ) : ℚ :=
  (l.map (fun d => (d - meanQ l) ^ 2)).sum / (l.length : ℚ)

/-! ### Identity mapper (source lines 27-41) -/

/-- The module-level id mapping state: the dict id_mapper (raw ByteTrack
id to clean id, insertion ordered) and the counter next_clean_id. -/
structure IdMapper where
  id_mapper : List (Int × Nat)
  next_clean_id : Nat
deriving DecidableEq

/-- get_clean_pig_id: return the mapped clean id, assigning
next_clean_id to an unseen raw id and incrementing the counter. -/
def get_clean_pig_id (s : IdMapper) (bytetrack_id : Int) : Nat × IdMapper :=
  match alookup s.id_mapper bytetrack_id with
  | some c => (c, s)
  | none =>
      (s.next_clean_id,
       ⟨s.id_mapper ++ [(bytetrack_id, s.next_clean_id)], s.next_clean_id + 1⟩)

/-- reset_id_mapper: empty mapping, counter back to 1. -/
def reset_id_mapper : IdMapper := ⟨[], 1⟩

/-- Fold get_clean_pig_id over a sequence of raw ids, keeping the state. -/
def processIds (s : IdMapper) (l : List Int) : IdMapper :=
  l.foldl (fun s r => (get_clean_pig_id s r).2) s

/-- Distinct raw ids in order of first appearance, starting from an
already-seen accumulator. -/
def dedupFrom (acc : List Int) (l : List Int) : List Int :=
  l.foldl (fun a r => if r ∈ a then a else a ++ [r]) acc

/-- Distinct raw ids of a sequence, in order of first appearance. -/
def dedupFirst (l : List Int) : List Int := dedupFrom [] l

/-- Index of the first occurrence of a raw id in a list (length of the
list when absent). -/
def firstIdx (r : Int) : List Int → Nat
  | [] => 0
  | x :: xs => if x = r then 0 else firstIdx r xs + 1

/-! ### Session parameters (source lines 70-84)

The source computes, once per analysis session:
  fps                      (from the video; `or 30` guards a zero reading)
  INTERVAL_SECONDS = 2
  frames_per_interval      = int(fps * INTERVAL_SECONDS)
  MOVEMENT_THRESHOLD       = 10.0
  IDLE_FRAMES_FOR_LETHARGY = int((fps / 5) * 10)
  LIMP_MEAN_MIN            = 3.0
  LIMP_VARIANCE_THRESHOLD  = 30.0
Python's int() on a float truncates toward zero. -/

/-- Python int() applied to a rational: truncation toward zero. -/
def pyInt (q : ℚ) : ℤ := if 0 ≤ q then ⌊q⌋ else ⌈q⌉

/-- MOVEMENT_THRESHOLD. -/
def MOVEMENT_THRESHOLD : ℚ := 10

/-- LIMP_MEAN_MIN. -/
def LIMP_MEAN_MIN : ℚ := 3

/-- LIMP_VARIANCE_THRESHOLD. -/
def LIMP_VARIANCE_THRESHOLD : ℚ := 30

/-- The two session constants derived from the frame rate. -/
structure Config where
  frames_per_interval : Nat
  idle_threshold : Nat
deriving DecidableEq

/-- Derivation of the session constants from fps, as in source lines
70-79: frames_per_interval = int(fps * 2) and
IDLE_FRAMES_FOR_LETHARGY = int((fps / 5) * 10).  Both are nonnegative
for the nonnegative fps values OpenCV reports, so toNat is lossless. -/
def mkConfig (fps : ℚ) : Config :=
  ⟨(pyInt (fps * 2)).toNat, (pyInt (fps / 5 * 10)).toNat⟩

/-! ### Per-track anomaly detectors (source lines 146-165)

Inside the batch loop, once a previous position exists for the track, the
source appends the displacement to the track's bounded window (line 150),
updates the idle counter (lines 151-155), possibly flags lethargy
(lines 156-158), and possibly flags limping (lines 159-165).  We factor
those lines into a step function on the per-track anomaly state; the full
loop below invokes it via anomOf / processObs. -/

/-- The per-track anomaly state assembled from the session dictionaries:
idle_frames entry, lethargic_pigs membership, displacement_history entry,
limping_pigs membership. -/
structure AnomState where
  idle : Nat
  lethargic : Bool
  disp_hist : List ℚ
  limping : Bool
deriving DecidableEq

/-- Result of one anomaly update: the new per-track state plus whether
the lethargy and limping conditions held on this frame (the source adds
the id to both the global and the open-interval set exactly when the
corresponding condition holds). -/
structure AnomOut where
  st : AnomState
  lethFired : Bool
  limpFired : Bool
deriving DecidableEq

/-- Source lines 150-165 for one track and one analyzed frame with a
known displacement.  The displacement is appended to the window first;
the idle counter increments when displacement < MOVEMENT_THRESHOLD and
the behavior is not resting, else resets to 0; lethargy fires when the
counter reaches IDLE_FRAMES_FOR_LETHARGY; limping fires when the behavior
is Walking, the window holds at least 10 samples, and the window's mean
and population variance exceed their thresholds. -/
def anomStep (cfg : Config) (a : AnomState) (displacement : ℚ)
    (current_behavior : Option Behavior) : AnomOut :=
  let disp_hist := pushBounded 20 a.disp_hist displacement
  let idle :=
    if displacement < MOVEMENT_THRESHOLD ∧ isResting current_behavior = false
    then a.idle + 1 else 0
  let lethFired := decide (cfg.idle_threshold ≤ idle)
  let limpFired :=
    (current_behavior == some Behavior.Walking)
      && decide (10 ≤ disp_hist.length)
      && decide (LIMP_MEAN_MIN < meanQ disp_hist)
      && decide (LIMP_VARIANCE_THRESHOLD < varQ disp_hist)
  ⟨⟨idle, a.lethargic || lethFired, disp_hist, a.limping || limpFired⟩,
   lethFired, limpFired⟩

/-- A fresh track's anomaly state: idle counter 0 (defaultdict(int)),
empty displacement window, neither flag set. -/
def freshAnom : AnomState := ⟨0, false, [], false⟩

/-- Fold anomStep over a trace of (displacement, behavior) pairs. -/
def runAnom (cfg : Config) (a : AnomState) (trace : List (ℚ × Option Behavior)) :
    AnomState :=
  trace.foldl (fun a p => (anomStep cfg a p.1 p.2).st) a

/-! ### Batch analysis loop state (analyze_video_data, lines 67-206) -/

/-- One detector observation on an analyzed frame: the raw ByteTrack id,
the box centroid, and the classification if the crop was non-empty
(None models pig_crop.size == 0, where no label is produced). -/
structure Obs where
  raw_id : Int
  cx : ℚ
  cy : ℚ
  behavior : Option Behavior
deriving DecidableEq

/-- One emitted time-series entry (the dict appended at lines 103-114 and
172-183). -/
structure BucketOut where
  time : String
  pig_count : Nat
  behavior_breakdown : List (Behavior × Nat × List Nat)
  lethargy : Bool
  lethargic_ids : List Nat
  limping : Bool
  limping_ids : List Nat
deriving DecidableEq

/-- The mutable state of analyze_video_data's loop: the id mapper plus
every local accumulator of lines 73-91. -/
structure BatchState where
  mapper : IdMapper
  behavior_counts : List (Behavior × Nat)
  pig_behavior_history : List (Nat × List (Behavior × Nat))
  track_history : List (Nat × List (ℚ × ℚ))
  idle_frames : List (Nat × Nat)
  lethargic_pigs : List Nat
  displacement_history : List (Nat × List ℚ)
  limping_pigs : List Nat
  time_series : List BucketOut
  interval_pig_behaviors : List (Nat × Behavior)
  interval_pig_ids : List Nat
  interval_lethargic_ids : List Nat
  interval_limping_ids : List Nat
  current_interval : Nat
  frame_count : Nat
deriving DecidableEq

/-- The state at the top of analyze_video_data (after reset_id_mapper and
the initializations of lines 73-91); behavior_counts starts with every
class at 0. -/
def initState : BatchState :=
  { mapper := reset_id_mapper
    behavior_counts := BEHAVIOR_CLASSES.map (fun b => (b, 0))
    pig_behavior_history := []
    track_history := []
    idle_frames := []
    lethargic_pigs := []
    displacement_history := []
    limping_pigs := []
    time_series := []
    interval_pig_behaviors := []
    interval_pig_ids := []
    interval_lethargic_ids := []
    interval_limping_ids := []
    current_interval := 0
    frame_count := 0 }

/-- Increment a behavior counter dict entry; a defaultdict(int) read
creates a missing key with 0 first, so a fresh key is appended with 1. -/
def bumpCount : List (Behavior × Nat) → Behavior → List (Behavior × Nat)
  | [], b => [(b, 1)]
  | (k, n) :: rest, b =>
      if k = b then (k, n + 1) :: rest else (k, n) :: bumpCount rest b

/-- behavior_summary construction (lines 100-102 / 169-171): append the
pig id to the list of its last-seen behavior, iterating the interval
dict in insertion order; a fresh behavior key is appended at the end. -/
def addToGroup : List (Behavior × List Nat) → Behavior → Nat → List (Behavior × List Nat)
  | [], b, pid => [(b, [pid])]
  | (k, ps) :: rest, b, pid =>
      if k = b then (k, ps ++ [pid]) :: rest else (k, ps) :: addToGroup rest b pid

/-- Group the interval's per-pig last-seen behaviors by behavior. -/
def groupByBehavior (l : List (Nat × Behavior)) : List (Behavior × List Nat) :=
  l.foldl (fun acc p => addToGroup acc p.2 p.1) []

/-- Insertion step of an insertion sort keyed by a Nat: the new element
goes in front of the first element with a key at least as large. -/
def insertBy {α : Type} (key : α → Nat) (x : α) : List α → List α
  | [] => [x]
  | y :: ys => if key x ≤ key y then x :: y :: ys else y :: insertBy key x ys

/-- Insertion sort keyed by a Nat, modelling Python's sorted / list.sort
with a numeric key. -/
def sortBy {α : Type} (key : α → Nat) (l : List α) : List α :=
  l.foldr (insertBy key) []

/-- Python sorted() on a list of distinct pig ids. -/
def sortNat (l : List Nat) : List Nat := sortBy id l

/-- The time-series dict built at lines 103-114 (and identically at
172-183) from the current interval accumulators. -/
def mkBucket (s : BatchState) : BucketOut :=
  { time := toString (s.current_interval * 2) ++ "s"
    pig_count := s.interval_pig_ids.length
    behavior_breakdown :=
      (groupByBehavior s.interval_pig_behaviors).map
        (fun g => (g.1, g.2.length, sortNat g.2))
    lethargy := decide (0 < s.interval_lethargic_ids.length)
    lethargic_ids := sortNat s.interval_lethargic_ids
    limping := decide (0 < s.interval_limping_ids.length)
    limping_ids := sortNat s.interval_limping_ids }

/-- Closing the open bucket (lines 98-119): append the bucket to the
time series, advance current_interval, and clear the four interval
accumulators. -/
def closeBucket (s : BatchState) : BatchState :=
  { s with
    time_series := s.time_series ++ [mkBucket s]
    current_interval := s.current_interval + 1
    interval_pig_ids := []
    interval_pig_behaviors := []
    interval_lethargic_ids := []
    interval_limping_ids := [] }

/-- The per-track anomaly state read out of the session dictionaries for
a given clean id. -/
def anomOf (s : BatchState) (cid : Nat) : AnomState :=
  ⟨agetD s.idle_frames cid 0,
   decide (cid ∈ s.lethargic_pigs),
   agetD s.displacement_history cid [],
   decide (cid ∈ s.limping_pigs)⟩

/-- Processing of one detection on an analyzed frame (lines 127-165):
resolve the clean id, record interval presence, tally the classification
when the crop is non-empty, update the track's position history, and --
when a previous position exists -- run the anomaly updates on the
displacement dist(prev, current). -/
def processObs (dist : ℚ × ℚ → ℚ × ℚ → ℚ) (cfg : Config)
    (s : BatchState) (o : Obs) : BatchState :=
  let pr := get_clean_pig_id s.mapper o.raw_id
  let cid := pr.1
  let s1 := { s with mapper := pr.2,
                     interval_pig_ids := insertSet s.interval_pig_ids cid }
  let s2 :=
    match o.behavior with
    | none => s1
    | some b =>
        { s1 with
          behavior_counts := bumpCount s1.behavior_counts b
          pig_behavior_history :=
            aset s1.pig_behavior_history cid
              (bumpCount (agetD s1.pig_behavior_history cid []) b)
          interval_pig_behaviors := aset s1.interval_pig_behaviors cid b }
  let hist := agetD s2.track_history cid []
  let prev_pos := hist.getLast?
  let s3 := { s2 with
              track_history := aset s2.track_history cid
                (pushBounded 15 hist (o.cx, o.cy)) }
  match prev_pos with
  | none => s3
  | some pp =>
      let displacement := dist pp (o.cx, o.cy)
      let r := anomStep cfg (anomOf s3 cid) displacement o.behavior
      { s3 with
        idle_frames := aset s3.idle_frames cid r.st.idle
        displacement_history := aset s3.displacement_history cid r.st.disp_hist
        lethargic_pigs :=
          if r.lethFired then insertSet s3.lethargic_pigs cid
          else s3.lethargic_pigs
        interval_lethargic_ids :=
          if r.lethFired then insertSet s3.interval_lethargic_ids cid
          else s3.interval_lethargic_ids
        limping_pigs :=
          if r.limpFired then insertSet s3.limping_pigs cid
          else s3.limping_pigs
        interval_limping_ids :=
          if r.limpFired then insertSet s3.interval_limping_ids cid
          else s3.interval_limping_ids }

/-- One iteration of the while loop (lines 93-165) on one raw frame:
bump the raw frame counter, close the open bucket when the counter is a
multiple of frames_per_interval, then -- only on every fifth raw frame --
run detection and process each observation in order. -/
def stepFrame (dist : ℚ × ℚ → ℚ × ℚ → ℚ) (cfg : Config)
    (s : BatchState) (obs : List Obs) : BatchState :=
  let s1 := { s with frame_count := s.frame_count + 1 }
  let s2 := if s1.frame_count % cfg.frames_per_interval = 0 then closeBucket s1 else s1
  if s2.frame_count % 5 ≠ 0 then s2
  else obs.foldl (processObs dist cfg) s2

/-- One per-pig entry of pig_summaries (lines 189-195). -/
structure PigSummary where
  pig_id : Nat
  predominant_behavior : Behavior
  behavior_counts : List (Behavior × Nat)
  is_lethargic : Bool
  is_limping : Bool
deriving DecidableEq

/-- The final report of analyze_video_data (lines 198-206).
primary_behavior is None for the "No Pig Detected" sentinel. -/
structure Report where
  primary_behavior : Option Behavior
  overall_behavior_counts : List (Behavior × Nat)
  total_unique_pigs : Nat
  pig_summaries : List PigSummary
  lethargy_flags : Nat
  limping_flags : Nat
  time_series : List BucketOut
deriving DecidableEq

/-- Python max(d, key=d.get) over an insertion-ordered counter dict:
scan in order, replacing the champion only on a strictly greater count,
so ties keep the earliest-inserted key.  Helper carrying the champion. -/
def maxKeyAux (b : Behavior) (n : Nat) : List (Behavior × Nat) → Behavior
  | [] => b
  | (k, m) :: rest => if n < m then maxKeyAux k m rest else maxKeyAux b n rest

/-- Python max(d, key=d.get) on a non-empty counter dict (Drinking is a
junk value for the empty dict, on which Python would raise). -/
def maxKey : List (Behavior × Nat) → Behavior
  | [] => Behavior.Drinking
  | (b, n) :: rest => maxKeyAux b n rest

/-- Finalization (lines 167-206): flush the open bucket when it has any
observed pig, build the per-pig summaries sorted by clean id, and emit
the report. -/
def finalize (s : BatchState) : Report :=
  let time_series :=
    if s.interval_pig_ids.isEmpty then s.time_series
    else s.time_series ++ [mkBucket s]
  let summaries :=
    s.pig_behavior_history.map (fun pb =>
      { pig_id := pb.1
        predominant_behavior := maxKey pb.2
        behavior_counts := pb.2
        is_lethargic := decide (pb.1 ∈ s.lethargic_pigs)
        is_limping := decide (pb.1 ∈ s.limping_pigs) : PigSummary })
  { primary_behavior :=
      if 0 < (s.behavior_counts.map Prod.snd).sum
      then some (maxKey s.behavior_counts) else none
    overall_behavior_counts := s.behavior_counts
    total_unique_pigs := s.pig_behavior_history.length
    pig_summaries := sortBy PigSummary.pig_id summaries
    lethargy_flags := s.lethargic_pigs.length
    limping_flags := s.limping_pigs.length
    time_series := time_series }

/-- analyze_video_data: derive the session constants from fps once, fold
the loop over the frames, finalize. -/
def analyze_video_data (dist : ℚ × ℚ → ℚ × ℚ → ℚ) (fps : ℚ)
    (frames : List (List Obs)) : Report :=
  finalize (frames.foldl (stepFrame dist (mkConfig fps)) initState)

/-- The displacement function used for concrete runs: the horizontal
distance.  It agrees with the source's Euclidean distance whenever the
vertical coordinate does not change. -/
def dist1 (p q : ℚ × ℚ) : ℚ := |p.1 - q.1|

/-- On observations whose vertical coordinate is constant, the source's
Euclidean displacement sqrt((cx-px)^2 + (cy-py)^2) equals dist1. -/
theorem euclidean_eq_dist1_of_fixed_y (p q : ℚ × ℚ) (h : p.2 = q.2) :
    Real.sqrt (((p.1 : ℝ) - (q.1 : ℝ)) ^ 2 + ((p.2 : ℝ) - (q.2 : ℝ)) ^ 2)
      = ((dist1 p q : ℚ) : ℝ) := by
  rw [h, sub_self]
  rw [show ((0 : ℝ)) ^ 2 = 0 from by norm_num, add_zero, Real.sqrt_sq_eq_abs]
  unfold dist1
  push_cast
  ring

/-! ### C1: the identity mapper -/

/-- The association list pairing the i-th element of l (0-based) with
the clean id k + i. -/
def pairsFrom (k : Nat) : List Int → List (Int × Nat)
  | [] => []
  | x :: xs => (x, k) :: pairsFrom (k + 1) xs

/-- The mapper state after the ids of seen (distinct, in order of first
appearance) have been assigned clean ids 1, 2, .... -/
def mapperOf (seen : List Int) : IdMapper :=
  ⟨pairsFrom 1 seen, seen.length + 1⟩

theorem pairsFrom_map_fst (l : List Int) : ∀ k, (pairsFrom k l).map Prod.fst = l := by
  induction l with
  | nil => intro k; rfl
  | cons x xs ih => intro k; simp [pairsFrom, ih]

theorem pairsFrom_map_snd (l : List Int) :
    ∀ k, (pairsFrom k l).map Prod.snd = List.range' k l.length := by
  induction l with
  | nil => intro k; rfl
  | cons x xs ih =>
      intro k
      simp only [pairsFrom, List.map_cons, ih, List.length_cons]
      rw [List.range'_succ]

theorem pairsFrom_append (l : List Int) (r : Int) :
    ∀ k, pairsFrom k (l ++ [r]) = pairsFrom k l ++ [(r, k + l.length)] := by
  induction l with
  | nil => intro k; simp [pairsFrom]
  | cons x xs ih =>
      intro k
      show (x, k) :: pairsFrom (k + 1) (xs ++ [r])
          = ((x, k) :: pairsFrom (k + 1) xs) ++ [(r, k + (xs.length + 1))]
      rw [ih (k + 1), List.cons_append]
      have h : k + 1 + xs.length = k + (xs.length + 1) := by omega
      rw [h]

theorem alookup_pairsFrom_of_not_mem (l : List Int) (r : Int) :
    ∀ k, r ∉ l → alookup (pairsFrom k l) r = none := by
  induction l with
  | nil => intro k _; rfl
  | cons x xs ih =>
      intro k h
      have hx : x ≠ r := fun e => h (e ▸ List.mem_cons_self x xs)
      simp only [pairsFrom, alookup, if_neg hx]
      exact ih (k + 1) (fun hm => h (List.mem_cons_of_mem x hm))

theorem alookup_pairsFrom_of_mem (l : List Int) (r : Int) :
    ∀ k, r ∈ l → alookup (pairsFrom k l) r = some (k + firstIdx r l) := by
  induction l with
  | nil => intro k h; cases h
  | cons x xs ih =>
      intro k h
      by_cases hx : x = r
      · simp [pairsFrom, alookup, hx, firstIdx]
      · have hm : r ∈ xs := by
          rcases List.mem_cons.mp h with h1 | h1
          · exact absurd h1.symm hx
          · exact h1
        simp only [pairsFrom, alookup, if_neg hx, ih (k + 1) hm, firstIdx, if_neg hx]
        congr 1
        omega

theorem dedupFrom_cons (acc : List Int) (r : Int) (rs : List Int) :
    dedupFrom acc (r :: rs) = dedupFrom (if r ∈ acc then acc else acc ++ [r]) rs := rfl

theorem dedupFrom_nodup (l : List Int) :
    ∀ acc : List Int, acc.Nodup → (dedupFrom acc l).Nodup := by
  induction l with
  | nil => intro acc h; exact h
  | cons r rs ih =>
      intro acc h
      rw [dedupFrom_cons]
      by_cases hr : r ∈ acc
      · simpa [hr] using ih acc h
      · have : (acc ++ [r]).Nodup := by
          simp [List.nodup_append, h, hr]
        simpa [hr] using ih (acc ++ [r]) this

theorem mem_dedupFrom_of_mem_acc (l : List Int) :
    ∀ acc : List Int, ∀ r, r ∈ acc → r ∈ dedupFrom acc l := by
  induction l with
  | nil => intro acc r h; exact h
  | cons x xs ih =>
      intro acc r h
      rw [dedupFrom_cons]
      by_cases hx : x ∈ acc
      · simpa [hx] using ih acc r h
      · simp only [if_neg hx]
        exact ih (acc ++ [x]) r (List.mem_append_left _ h)

theorem mem_dedupFrom_of_mem (l : List Int) :
    ∀ acc : List Int, ∀ r, r ∈ l → r ∈ dedupFrom acc l := by
  induction l with
  | nil => intro acc r h; cases h
  | cons x xs ih =>
      intro acc r h
      rw [dedupFrom_cons]
      rcases List.mem_cons.mp h with h1 | h1
      · subst h1
        by_cases hx : r ∈ acc
        · simpa [hx] using mem_dedupFrom_of_mem_acc xs acc r hx
        · simp only [if_neg hx]
          exact mem_dedupFrom_of_mem_acc xs (acc ++ [r]) r (by simp)
      · by_cases hx : x ∈ acc
        · simpa [hx] using ih acc r h1
        · simp only [if_neg hx]
          exact ih (acc ++ [x]) r h1

theorem processIds_mapperOf (l : List Int) :
    ∀ seen : List Int, processIds (mapperOf seen) l = mapperOf (dedupFrom seen l) := by
  induction l with
  | nil => intro seen; rfl
  | cons r rs ih =>
      intro seen
      have hstep : processIds (mapperOf seen) (r :: rs)
          = processIds (get_clean_pig_id (mapperOf seen) r).2 rs := rfl
      rw [hstep, dedupFrom_cons]
      by_cases hr : r ∈ seen
      · have : (get_clean_pig_id (mapperOf seen) r).2 = mapperOf seen := by
          simp [get_clean_pig_id, mapperOf, alookup_pairsFrom_of_mem seen r 1 hr]
        rw [this, if_pos hr]
        exact ih seen
      · have : (get_clean_pig_id (mapperOf seen) r).2 = mapperOf (seen ++ [r]) := by
          simp only [get_clean_pig_id, mapperOf,
            alookup_pairsFrom_of_not_mem seen r 1 hr]
          simp [pairsFrom_append, Nat.add_comm]
        rw [this, if_neg hr]
        exact ih (seen ++ [r])

/-- C1: for every sequence of raw tracker ids, the raw-to-clean mapping
after the run pairs the i-th distinct raw id (in order of first
appearance) with clean id i + 1: its keys are exactly the distinct raw
ids in first-appearance order, its values are exactly 1..k without
repetition, a raw id that already appeared is answered with its existing
clean id and the state is unchanged, and reset_id_mapper yields the empty
mapping with the next first observation assigned clean id 1. -/
theorem C1_identity_mapper (raws : List Int) :
    (processIds reset_id_mapper raws).id_mapper = pairsFrom 1 (dedupFirst raws)
    ∧ (processIds reset_id_mapper raws).id_mapper.map Prod.fst = dedupFirst raws
    ∧ (processIds reset_id_mapper raws).id_mapper.map Prod.snd
        = List.range' 1 (dedupFirst raws).length
    ∧ (dedupFirst raws).Nodup
    ∧ (processIds reset_id_mapper raws).next_clean_id = (dedupFirst raws).length + 1
    ∧ (∀ r, r ∈ raws →
        get_clean_pig_id (processIds reset_id_mapper raws) r
          = (firstIdx r (dedupFirst raws) + 1, processIds reset_id_mapper raws))
    ∧ reset_id_mapper.id_mapper = []
    ∧ reset_id_mapper.next_clean_id = 1
    ∧ (∀ r, (get_clean_pig_id reset_id_mapper r).1 = 1) := by
  have hreset : reset_id_mapper = mapperOf [] := rfl
  have hrun : processIds reset_id_mapper raws = mapperOf (dedupFirst raws) := by
    rw [hreset]; exact processIds_mapperOf raws []
  refine ⟨by rw [hrun]; rfl, ?_, ?_, ?_, by rw [hrun]; rfl, ?_, rfl, rfl, fun r => rfl⟩
  · rw [hrun]; exact pairsFrom_map_fst (dedupFirst raws) 1
  · rw [hrun]; exact pairsFrom_map_snd (dedupFirst raws) 1
  · exact dedupFrom_nodup raws [] List.nodup_nil
  · intro r hr
    have hmem : r ∈ dedupFirst raws := mem_dedupFrom_of_mem raws [] r hr
    rw [hrun]
    simp only [get_clean_pig_id, mapperOf,
      alookup_pairsFrom_of_mem (dedupFirst raws) r 1 hmem]
    rw [Nat.add_comm]

/-- Witness for C1 at the concrete raw-id sequence [5, 3, 5, 9]: raw id 3
is the second distinct id, so a repeat query answers clean id 2 and
leaves the state unchanged. -/
theorem C1_identity_mapper_witness :
    get_clean_pig_id (processIds reset_id_mapper [5, 3, 5, 9]) 3
      = (2, processIds reset_id_mapper [5, 3, 5, 9]) := by
  have h2 := (C1_identity_mapper [5, 3, 5, 9]).2.2.2.2.2.1 3 (by decide)
  rw [(by decide : firstIdx 3 (dedupFirst [5, 3, 5, 9]) + 1 = 2)] at h2
  exact h2

/-! ### C2: derivation of frames_per_interval -/

/-- Modelled from the spec: the spec derives
frames_per_interval = round(fps * interval_seconds), the nearest integer,
with interval_seconds = 2. -/
def frames_per_interval_spec (fps : ℚ) : ℤ := round (fps * 2)

/-- C2 counterexample: at fps = 29.97 the source computes
int(29.97 * 2) = 59 (truncation toward zero), while the nearest integer
to 59.94 is 60, so the claimed rounding does not match the code. -/
theorem C2_counterexample :
    (mkConfig (2997 / 100)).frames_per_interval = 59
    ∧ frames_per_interval_spec (2997 / 100) = 60
    ∧ (59 : Nat) ≠ 60 := by
  have hm : ((2997 : ℚ) / 100) * 2 = 5994 / 100 := by norm_num
  refine ⟨?_, ?_, by decide⟩
  · simp only [mkConfig, pyInt, hm]
    rw [if_pos (by norm_num : (0 : ℚ) ≤ 5994 / 100)]
    rw [(by rw [Int.floor_eq_iff]; norm_num : ⌊(5994 : ℚ) / 100⌋ = 59)]
    rfl
  · rw [frames_per_interval_spec, hm, round_eq]
    rw [(by norm_num : (5994 : ℚ) / 100 + 1 / 2 = 6044 / 100)]
    rw [Int.floor_eq_iff]
    norm_num

/-- C2 amended: frames_per_interval is derived exactly once per session
as int(fps * interval_seconds) with interval_seconds = 2, i.e. truncation
toward zero; for every nonnegative fps this is the floor of fps * 2, not
the nearest integer. -/
theorem C2_amended (fps : ℚ) (h : 0 ≤ fps) :
    ((mkConfig fps).frames_per_interval : ℤ) = ⌊fps * 2⌋ := by
  have h2 : (0 : ℚ) ≤ fps * 2 := by positivity
  simp only [mkConfig, pyInt, if_pos h2]
  exact Int.toNat_of_nonneg (Int.floor_nonneg.mpr h2)

/-- Witness for the amended C2 at fps = 29.97. -/
theorem C2_amended_witness :
    ((mkConfig (2997 / 100)).frames_per_interval : ℤ) = ⌊((2997 : ℚ) / 100) * 2⌋ :=
  C2_amended (2997 / 100) (by norm_num)

/-! ### C7: lethargic and limping flags are monotonic within a session -/

theorem subset_insertSet (l : List Nat) (x : Nat) : l ⊆ insertSet l x := by
  unfold insertSet
  split
  · exact fun a ha => ha
  · exact List.subset_append_left l [x]

theorem processObs_flags_mono (dist : ℚ × ℚ → ℚ × ℚ → ℚ) (cfg : Config)
    (s : BatchState) (o : Obs) :
    s.lethargic_pigs ⊆ (processObs dist cfg s o).lethargic_pigs
    ∧ s.limping_pigs ⊆ (processObs dist cfg s o).limping_pigs := by
  rcases o with ⟨rid, cx, cy, ob⟩
  simp only [processObs]
  cases ob <;>
    · dsimp only
      generalize (agetD s.track_history (get_clean_pig_id s.mapper rid).1
        ([] : List (ℚ × ℚ))).getLast? = pv
      cases pv <;>
        · dsimp only
          constructor <;>
            first
            | exact fun a ha => ha
            | (split
               · exact subset_insertSet _ _
               · exact fun a ha => ha)

theorem foldl_processObs_flags_mono (dist : ℚ × ℚ → ℚ × ℚ → ℚ) (cfg : Config)
    (obs : List Obs) :
    ∀ s : BatchState,
      s.lethargic_pigs ⊆ (obs.foldl (processObs dist cfg) s).lethargic_pigs
      ∧ s.limping_pigs ⊆ (obs.foldl (processObs dist cfg) s).limping_pigs := by
  induction obs with
  | nil => intro s; exact ⟨fun a ha => ha, fun a ha => ha⟩
  | cons o os ih =>
      intro s
      refine ⟨List.Subset.trans (processObs_flags_mono dist cfg s o).1 ?_,
              List.Subset.trans (processObs_flags_mono dist cfg s o).2 ?_⟩
      · exact (ih (processObs dist cfg s o)).1
      · exact (ih (processObs dist cfg s o)).2

theorem foldl_processObs_flags_mono' (dist : ℚ × ℚ → ℚ × ℚ → ℚ) (cfg : Config)
    (obs : List Obs) (t : BatchState) (l1 l2 : List Nat)
    (h1 : t.lethargic_pigs = l1) (h2 : t.limping_pigs = l2) :
    l1 ⊆ (obs.foldl (processObs dist cfg) t).lethargic_pigs
    ∧ l2 ⊆ (obs.foldl (processObs dist cfg) t).limping_pigs := by
  rw [← h1, ← h2]
  exact foldl_processObs_flags_mono dist cfg obs t

theorem stepFrame_flags_mono (dist : ℚ × ℚ → ℚ × ℚ → ℚ) (cfg : Config)
    (s : BatchState) (obs : List Obs) :
    s.lethargic_pigs ⊆ (stepFrame dist cfg s obs).lethargic_pigs
    ∧ s.limping_pigs ⊆ (stepFrame dist cfg s obs).limping_pigs := by
  simp only [stepFrame]
  split <;> split <;>
    first
    | exact ⟨fun a ha => ha, fun a ha => ha⟩
    | exact foldl_processObs_flags_mono' dist cfg obs _ _ _ rfl rfl

/-- C7: within a session the lethargic and limping sets only ever grow:
from any loop state, after any further frames every id already in the
session's lethargic (resp. limping) set is still in it, so a track's
sticky flag, once set, is never cleared by any per-frame operation. -/
theorem C7_sticky_flags (dist : ℚ × ℚ → ℚ × ℚ → ℚ) (cfg : Config)
    (frames : List (List Obs)) :
    ∀ s : BatchState,
      s.lethargic_pigs ⊆ (frames.foldl (stepFrame dist cfg) s).lethargic_pigs
      ∧ s.limping_pigs ⊆ (frames.foldl (stepFrame dist cfg) s).limping_pigs := by
  induction frames with
  | nil => intro s; exact ⟨fun a ha => ha, fun a ha => ha⟩
  | cons f fs ih =>
      intro s
      refine ⟨List.Subset.trans (stepFrame_flags_mono dist cfg s f).1 ?_,
              List.Subset.trans (stepFrame_flags_mono dist cfg s f).2 ?_⟩
      · exact (ih (stepFrame dist cfg s f)).1
      · exact (ih (stepFrame dist cfg s f)).2

/-! ### C4: idle counter and lethargy -/

theorem pushBounded_length_le {α : Type} (cap : Nat) (l : List α) (x : α) :
    (pushBounded cap l x).length ≤ cap ∨ (pushBounded cap l x) = l ++ [x] := by
  unfold pushBounded
  dsimp only
  split
  · left; rw [List.length_drop]; omega
  · right; rfl

theorem pushBounded_length_le_cap {α : Type} (cap : Nat) (l : List α) (x : α)
    (h : l.length ≤ cap) : (pushBounded cap l x).length ≤ cap := by
  rcases pushBounded_length_le cap l x with h1 | h1
  · exact h1
  · rw [h1]
    unfold pushBounded at h1
    dsimp only at h1
    by_cases hc : cap < (l ++ [x]).length
    · rw [if_pos hc] at h1
      have := congrArg List.length h1
      rw [List.length_drop] at this
      omega
    · omega

theorem runAnom_idle (cfg : Config) :
    ∀ trace : List (ℚ × Option Behavior),
      (∀ p ∈ trace, p.1 < MOVEMENT_THRESHOLD ∧ isResting p.2 = false) →
      ∀ a : AnomState,
        (runAnom cfg a trace).idle = a.idle + trace.length
        ∧ ((runAnom cfg a trace).lethargic = true ↔
            (a.lethargic = true
              ∨ (1 ≤ trace.length ∧ cfg.idle_threshold ≤ a.idle + trace.length))) := by
  intro trace
  induction trace with
  | nil => intro _ a; simp [runAnom]
  | cons p ps ih =>
      intro htrace a
      have hp := htrace p (List.mem_cons_self p ps)
      have hps : ∀ q ∈ ps, q.1 < MOVEMENT_THRESHOLD ∧ isResting q.2 = false :=
        fun q hq => htrace q (List.mem_cons_of_mem p hq)
      have hstep : runAnom cfg a (p :: ps) = runAnom cfg (anomStep cfg a p.1 p.2).st ps := rfl
      have hidle : (anomStep cfg a p.1 p.2).st.idle = a.idle + 1 := by
        show (if p.1 < MOVEMENT_THRESHOLD ∧ isResting p.2 = false then a.idle + 1 else 0)
            = a.idle + 1
        rw [if_pos ⟨hp.1, hp.2⟩]
      have hleth : (anomStep cfg a p.1 p.2).st.lethargic
          = (a.lethargic || decide (cfg.idle_threshold ≤ a.idle + 1)) := by
        show (a.lethargic || decide (cfg.idle_threshold ≤ (anomStep cfg a p.1 p.2).st.idle))
            = (a.lethargic || decide (cfg.idle_threshold ≤ a.idle + 1))
        rw [hidle]
      obtain ⟨ihi, ihl⟩ := ih hps (anomStep cfg a p.1 p.2).st
      constructor
      · rw [hstep, ihi, hidle, List.length_cons]
        omega
      · rw [hstep, ihl, hleth, hidle, List.length_cons]
        cases a.lethargic
        · simp only [Bool.false_or, decide_eq_true_eq, Bool.false_eq_true, false_or]
          omega
        · simp

/-- C4: on every analyzed frame with a known displacement, the idle
counter resets to 0 when displacement is at least the movement threshold
or the behavior is a resting label and otherwise increments by 1; the
lethargy condition fires exactly when the counter is at least
idle_frames_for_lethargy; and a fresh track fed k consecutive idle frames
(displacement below threshold, behavior not resting) is lethargic exactly
when k has reached idle_frames_for_lethargy, in particular not yet at
k = idle_frames_for_lethargy - 1. -/
theorem C4_idle_counter_lethargy (cfg : Config) (hT : 1 ≤ cfg.idle_threshold)
    (trace : List (ℚ × Option Behavior))
    (htrace : ∀ p ∈ trace, p.1 < MOVEMENT_THRESHOLD ∧ isResting p.2 = false) :
    (∀ (a : AnomState) (d : ℚ) (b : Option Behavior),
        (anomStep cfg a d b).st.idle
          = (if MOVEMENT_THRESHOLD ≤ d ∨ isResting b = true then 0 else a.idle + 1)
        ∧ (anomStep cfg a d b).st.lethargic
            = (a.lethargic || (anomStep cfg a d b).lethFired)
        ∧ ((anomStep cfg a d b).lethFired = true
            ↔ cfg.idle_threshold ≤ (anomStep cfg a d b).st.idle))
    ∧ (runAnom cfg freshAnom trace).idle = trace.length
    ∧ (runAnom cfg freshAnom trace).lethargic
        = decide (cfg.idle_threshold ≤ trace.length) := by
  refine ⟨?_, ?_, ?_⟩
  · intro a d b
    refine ⟨?_, rfl, ?_⟩
    · show (if d < MOVEMENT_THRESHOLD ∧ isResting b = false then a.idle + 1 else 0)
          = (if MOVEMENT_THRESHOLD ≤ d ∨ isResting b = true then 0 else a.idle + 1)
      by_cases h1 : d < MOVEMENT_THRESHOLD
      · cases h2 : isResting b
        · simp [h1, h2, not_le.mpr h1]
        · simp [h1, h2]
      · simp [h1, not_lt.mp h1]
    · show decide (cfg.idle_threshold ≤ (anomStep cfg a d b).st.idle) = true
          ↔ cfg.idle_threshold ≤ (anomStep cfg a d b).st.idle
      exact decide_eq_true_iff
  · have h := (runAnom_idle cfg trace htrace freshAnom).1
    simpa [freshAnom] using h
  · have h := (runAnom_idle cfg trace htrace freshAnom).2
    have hfl : freshAnom.lethargic = false := rfl
    have hfi : freshAnom.idle = 0 := rfl
    rw [hfl, hfi] at h
    by_cases hle : cfg.idle_threshold ≤ trace.length
    · have h1 : 1 ≤ trace.length := le_trans hT hle
      have h2 : (runAnom cfg freshAnom trace).lethargic = true :=
        h.mpr (Or.inr ⟨h1, by omega⟩)
      rw [h2, decide_eq_true hle]
    · have h2 : (runAnom cfg freshAnom trace).lethargic = false := by
        cases hb : (runAnom cfg freshAnom trace).lethargic
        · rfl
        · exfalso
          rcases h.mp hb with h3 | ⟨h3, h4⟩
          · exact Bool.false_ne_true h3
          · omega
      rw [h2]
      exact (decide_eq_false hle).symm

/-- Witness for C4 at idle_frames_for_lethargy = 60 (the mkConfig 30
session): 60 consecutive idle frames on a fresh track set the lethargic
flag, 59 do not. -/
theorem C4_idle_counter_lethargy_witness :
    (runAnom (mkConfig 30) freshAnom
        (List.replicate 60 ((0 : ℚ), (none : Option Behavior)))).lethargic = true
    ∧ (runAnom (mkConfig 30) freshAnom
        (List.replicate 59 ((0 : ℚ), (none : Option Behavior)))).lethargic = false := by
  have hT : 1 ≤ (mkConfig 30).idle_threshold := by with_unfolding_all decide
  have hobs : ∀ n : Nat, ∀ p ∈ List.replicate n ((0 : ℚ), (none : Option Behavior)),
      p.1 < MOVEMENT_THRESHOLD ∧ isResting p.2 = false := by
    intro n p hp
    rw [List.eq_of_mem_replicate hp]
    exact ⟨by decide, rfl⟩
  have h60 := (C4_idle_counter_lethargy (mkConfig 30) hT
      (List.replicate 60 ((0 : ℚ), (none : Option Behavior))) (hobs 60)).2.2
  have h59 := (C4_idle_counter_lethargy (mkConfig 30) hT
      (List.replicate 59 ((0 : ℚ), (none : Option Behavior))) (hobs 59)).2.2
  rw [h60, h59]
  constructor <;> with_unfolding_all decide

/-! ### C5: the limping detector -/

/-- The alternating displacement trace of the claim, walking throughout. -/
def limpTrace : List (ℚ × Option Behavior) :=
  ([5, 40, 5, 40, 5, 40, 5, 40, 5, 40] : List ℚ).map
    (fun d => (d, some Behavior.Walking))

/-- The constant displacement trace of the claim, walking throughout. -/
def steadyTrace : List (ℚ × Option Behavior) :=
  List.replicate 10 ((5 : ℚ), some Behavior.Walking)

/-- C5: each observation appends the displacement to the track's window,
the window never exceeds its capacity 20, and the sticky limping flag is
set exactly when the behavior is Walking, the window holds at least 10
samples, and the window's arithmetic mean exceeds 3 and its population
variance exceeds 30; on the alternating trace 5,40,... the flag is set
after 10 samples, on the constant trace 5,...,5 it is not. -/
theorem C5_limping_detector :
    (∀ (cfg : Config) (a : AnomState) (d : ℚ) (b : Option Behavior),
        (anomStep cfg a d b).st.disp_hist = pushBounded 20 a.disp_hist d
        ∧ (a.disp_hist.length ≤ 20 → (anomStep cfg a d b).st.disp_hist.length ≤ 20)
        ∧ (anomStep cfg a d b).st.limping
            = (a.limping
                || ((b == some Behavior.Walking)
                    && decide (10 ≤ (pushBounded 20 a.disp_hist d).length)
                    && decide (LIMP_MEAN_MIN < meanQ (pushBounded 20 a.disp_hist d))
                    && decide (LIMP_VARIANCE_THRESHOLD
                        < varQ (pushBounded 20 a.disp_hist d)))))
    ∧ (runAnom ⟨60, 60⟩ freshAnom limpTrace).limping = true
    ∧ (runAnom ⟨60, 60⟩ freshAnom steadyTrace).limping = false := by
  refine ⟨?_, by with_unfolding_all decide, by with_unfolding_all decide⟩
  intro cfg a d b
  exact ⟨rfl, fun h => pushBounded_length_le_cap 20 a.disp_hist d h, rfl⟩

/-- Witness for C5 discharging the capacity hypothesis at a fresh track:
after observing one displacement the window holds one sample. -/
theorem C5_limping_detector_witness :
    (anomStep ⟨60, 60⟩ freshAnom 5 (some Behavior.Walking)).st.disp_hist.length ≤ 20 :=
  (C5_limping_detector.1 ⟨60, 60⟩ freshAnom 5 (some Behavior.Walking)).2.1
    (by decide)

/-! ### C6: content of a bucket's lethargic / limping id sets -/

theorem mem_insertSet (l : List Nat) (x y : Nat) :
    x ∈ insertSet l y ↔ x ∈ l ∨ x = y := by
  unfold insertSet
  by_cases hy : y ∈ l
  · rw [if_pos hy]
    constructor
    · exact Or.inl
    · rintro (h | rfl)
      · exact h
      · exact hy
  · rw [if_neg hy]
    simp [List.mem_append]

/-- C6 amended: closing a bucket empties the interval lethargic and
limping accumulators (and emits their sorted contents), and processing
one observation adds the observation's clean id to the open interval's
lethargic (resp. limping) accumulator exactly when the lethargy
(resp. limping) firing condition holds on that frame -- whether or not
the id's session flag was already set beforehand. -/
theorem C6_interval_set_semantics (dist : ℚ × ℚ → ℚ × ℚ → ℚ) (cfg : Config)
    (s : BatchState) (o : Obs) (x : Nat) :
    (closeBucket s).interval_lethargic_ids = []
    ∧ (closeBucket s).interval_limping_ids = []
    ∧ (closeBucket s).time_series = s.time_series ++ [mkBucket s]
    ∧ (mkBucket s).lethargic_ids = sortNat s.interval_lethargic_ids
    ∧ (mkBucket s).limping_ids = sortNat s.interval_limping_ids
    ∧ (x ∈ (processObs dist cfg s o).interval_lethargic_ids ↔
        (x ∈ s.interval_lethargic_ids
          ∨ (x = (get_clean_pig_id s.mapper o.raw_id).1
              ∧ ∃ pp, (agetD s.track_history (get_clean_pig_id s.mapper o.raw_id).1
                    ([] : List (ℚ × ℚ))).getLast? = some pp
                  ∧ (anomStep cfg (anomOf s (get_clean_pig_id s.mapper o.raw_id).1)
                      (dist pp (o.cx, o.cy)) o.behavior).lethFired = true)))
    ∧ (x ∈ (processObs dist cfg s o).interval_limping_ids ↔
        (x ∈ s.interval_limping_ids
          ∨ (x = (get_clean_pig_id s.mapper o.raw_id).1
              ∧ ∃ pp, (agetD s.track_history (get_clean_pig_id s.mapper o.raw_id).1
                    ([] : List (ℚ × ℚ))).getLast? = some pp
                  ∧ (anomStep cfg (anomOf s (get_clean_pig_id s.mapper o.raw_id).1)
                      (dist pp (o.cx, o.cy)) o.behavior).limpFired = true))) := by
  refine ⟨rfl, rfl, rfl, rfl, rfl, ?_, ?_⟩ <;>
  · rcases o with ⟨rid, cx, cy, ob⟩
    simp only [processObs, anomOf]
    cases ob <;>
    · dsimp only
      cases hp : (agetD s.track_history (get_clean_pig_id s.mapper rid).1
          ([] : List (ℚ × ℚ))).getLast?
      · dsimp only
        simp
      · dsimp only
        split <;> simp_all [mem_insertSet]

/-- A single always-present stationary pig, classified Eating. -/
def obs0 : Obs := ⟨7, 0, 0, some Behavior.Eating⟩

/-- C6 counterexample: in the fps = 5 session (frames_per_interval and
idle_frames_for_lethargy both 10) with one stationary pig detected on
every frame, the pig first fires lethargy inside the bucket labeled
"10s" and its session flag is already set when that bucket closes at raw
frame 60, yet the next closed bucket "12s" lists the pig in its
lethargic id set again, although the pig was not newly flagged during
that bucket's window. -/
theorem C6_counterexample :
    mkConfig 5 = ⟨10, 10⟩
    ∧ 1 ∈ ((List.replicate 60 [obs0]).foldl
        (stepFrame dist1 ⟨10, 10⟩) initState).lethargic_pigs
    ∧ (((List.replicate 70 [obs0]).foldl
          (stepFrame dist1 ⟨10, 10⟩) initState).time_series.map
        (fun b => (b.time, b.lethargic_ids))).drop 5
      = [("10s", [1]), ("12s", [1])] := by
  refine ⟨by with_unfolding_all decide, ?_, ?_⟩
  · with_unfolding_all decide
  · with_unfolding_all decide

/-! ### C8: predominant behavior and summary ordering -/

/-- The maximum count appearing in a counter dict (0 for the empty one). -/
def maxCount (l : List (Behavior × Nat)) : Nat :=
  l.foldr (fun p acc => max p.2 acc) 0

/-- The running champion of Python's max scan, keeping the count as well:
replaced only on a strictly greater count. -/
def maxPairAux (p : Behavior × Nat) : List (Behavior × Nat) → Behavior × Nat
  | [] => p
  | (k, m) :: rest => if p.2 < m then maxPairAux (k, m) rest else maxPairAux p rest

theorem maxKeyAux_eq_maxPairAux (l : List (Behavior × Nat)) :
    ∀ (b : Behavior) (n : Nat), maxKeyAux b n l = (maxPairAux (b, n) l).1 := by
  induction l with
  | nil => intro b n; rfl
  | cons q rest ih =>
      intro b n
      rcases q with ⟨k, m⟩
      show (if n < m then maxKeyAux k m rest else maxKeyAux b n rest)
          = (if n < m then maxPairAux (k, m) rest else maxPairAux (b, n) rest).1
      split
      · exact ih k m
      · exact ih b n

theorem maxPairAux_cons (p : Behavior × Nat) (k : Behavior) (m : Nat)
    (rest : List (Behavior × Nat)) :
    maxPairAux p ((k, m) :: rest)
      = if p.2 < m then maxPairAux (k, m) rest else maxPairAux p rest := rfl

theorem maxPairAux_le (l : List (Behavior × Nat)) :
    ∀ p : Behavior × Nat,
      p.2 ≤ (maxPairAux p l).2 ∧ ∀ q ∈ l, q.2 ≤ (maxPairAux p l).2 := by
  induction l with
  | nil => intro p; exact ⟨le_refl _, fun q hq => absurd hq (List.not_mem_nil q)⟩
  | cons r rest ih =>
      intro p
      rcases r with ⟨k, m⟩
      rw [maxPairAux_cons]
      by_cases hc : p.2 < m
      · rw [if_pos hc]
        obtain ⟨h1, h2⟩ := ih (k, m)
        refine ⟨le_trans (le_of_lt hc) h1, ?_⟩
        intro q hq
        rcases List.mem_cons.mp hq with rfl | hq'
        · exact h1
        · exact h2 q hq'
      · rw [if_neg hc]
        obtain ⟨h1, h2⟩ := ih p
        refine ⟨h1, ?_⟩
        intro q hq
        rcases List.mem_cons.mp hq with rfl | hq'
        · exact le_trans (not_lt.mp hc) h1
        · exact h2 q hq'

theorem maxPairAux_mem (l : List (Behavior × Nat)) :
    ∀ p : Behavior × Nat, maxPairAux p l = p ∨ maxPairAux p l ∈ l := by
  induction l with
  | nil => intro p; exact Or.inl rfl
  | cons r rest ih =>
      intro p
      rcases r with ⟨k, m⟩
      rw [maxPairAux_cons]
      by_cases hc : p.2 < m
      · rw [if_pos hc]
        rcases ih (k, m) with h | h
        · refine Or.inr ?_
          rw [h]
          exact List.mem_cons_self _ _
        · exact Or.inr (List.mem_cons_of_mem _ h)
      · rw [if_neg hc]
        rcases ih p with h | h
        · exact Or.inl h
        · exact Or.inr (List.mem_cons_of_mem _ h)

theorem maxPairAux_find (l : List (Behavior × Nat)) :
    ∀ p : Behavior × Nat,
      (p :: l).find? (fun q => decide ((maxPairAux p l).2 ≤ q.2))
        = some (maxPairAux p l) := by
  induction l with
  | nil =>
      intro p
      show (p :: []).find? (fun q => decide (p.2 ≤ q.2)) = some p
      rw [List.find?_cons_of_pos _ (by simp)]
  | cons r rest ih =>
      intro p
      rcases r with ⟨k, m⟩
      by_cases hc : p.2 < m
      · have hR : maxPairAux p ((k, m) :: rest) = maxPairAux (k, m) rest := by
          show (if p.2 < m then _ else _) = _
          rw [if_pos hc]
        rw [hR]
        have hmle : m ≤ (maxPairAux (k, m) rest).2 := (maxPairAux_le rest (k, m)).1
        rw [List.find?_cons_of_neg _ (by simp; omega)]
        exact ih (k, m)
      · have hR : maxPairAux p ((k, m) :: rest) = maxPairAux p rest := by
          show (if p.2 < m then _ else _) = _
          rw [if_neg hc]
        rw [hR]
        have hih := ih p
        by_cases hd : (maxPairAux p rest).2 ≤ p.2
        · rw [List.find?_cons_of_pos _ (by simpa using hd)] at hih
          rw [List.find?_cons_of_pos _ (by simpa using hd)]
          exact hih
        · rw [List.find?_cons_of_neg _ (by simpa using hd)] at hih
          rw [List.find?_cons_of_neg _ (by simpa using hd)]
          rw [List.find?_cons_of_neg _ (by simp; omega)]
          exact hih

theorem maxCount_eq (l : List (Behavior × Nat)) (c : Nat)
    (hmem : ∃ q ∈ l, q.2 = c) (hub : ∀ q ∈ l, q.2 ≤ c) : maxCount l = c := by
  induction l with
  | nil => rcases hmem with ⟨q, hq, _⟩; exact absurd hq (List.not_mem_nil q)
  | cons r rest ih =>
      show max r.2 (maxCount rest) = c
      rcases hmem with ⟨q, hq, hqc⟩
      rcases List.mem_cons.mp hq with rfl | hq'
      · have h1 : maxCount rest ≤ c := by
          subst hqc
          clear hq ih
          induction rest with
          | nil => exact Nat.zero_le _
          | cons t ts iht =>
              show max t.2 (maxCount ts) ≤ q.2
              have := hub t (by simp)
              have h2 := iht (fun u hu => hub u (by
                rcases List.mem_cons.mp hu with rfl | hu'
                · exact List.mem_cons_self _ _
                · exact List.mem_cons_of_mem _ (List.mem_cons_of_mem _ hu')))
              omega
        have := hub q (List.mem_cons_self _ _)
        omega
      · have h1 : maxCount rest = c :=
          ih ⟨q, hq', hqc⟩ (fun u hu => hub u (List.mem_cons_of_mem _ hu))
        have h2 : r.2 ≤ c := hub r (List.mem_cons_self _ _)
        omega

/-- The first entry of a non-empty counter dict whose count attains the
dict's maximum is exactly the entry Python's max scan selects. -/
theorem maxKey_first_max (l : List (Behavior × Nat)) (h : l ≠ []) :
    l.find? (fun q => decide (maxCount l ≤ q.2)) = some (maxKey l, maxCount l) := by
  rcases l with _ | ⟨⟨b, n⟩, rest⟩
  · exact absurd rfl h
  · have hmk : maxKey ((b, n) :: rest) = (maxPairAux (b, n) rest).1 := by
      show maxKeyAux b n rest = _
      exact maxKeyAux_eq_maxPairAux rest b n
    have hmc : maxCount ((b, n) :: rest) = (maxPairAux (b, n) rest).2 := by
      apply maxCount_eq
      · rcases maxPairAux_mem rest (b, n) with hmm | hmm
        · exact ⟨(b, n), List.mem_cons_self _ _, by rw [hmm]⟩
        · exact ⟨maxPairAux (b, n) rest, List.mem_cons_of_mem _ hmm, rfl⟩
      · intro q hq
        rcases List.mem_cons.mp hq with rfl | hq'
        · exact (maxPairAux_le rest (b, n)).1
        · exact (maxPairAux_le rest (b, n)).2 q hq'
    rw [hmk, hmc]
    exact maxPairAux_find rest (b, n)

theorem insertBy_mem {α : Type} (key : α → Nat) (x : α) (l : List α) (z : α) :
    z ∈ insertBy key x l ↔ z = x ∨ z ∈ l := by
  induction l with
  | nil => simp [insertBy]
  | cons y ys ih =>
      unfold insertBy
      split
      · simp only [List.mem_cons]
      · simp only [List.mem_cons, ih]
        tauto

theorem insertBy_perm {α : Type} (key : α → Nat) (x : α) (l : List α) :
    (insertBy key x l).Perm (x :: l) := by
  induction l with
  | nil => exact List.Perm.refl _
  | cons y ys ih =>
      unfold insertBy
      split
      · exact List.Perm.refl _
      · exact (List.Perm.cons y ih).trans (List.Perm.swap x y ys)

theorem sortBy_perm {α : Type} (key : α → Nat) (l : List α) :
    (sortBy key l).Perm l := by
  induction l with
  | nil => exact List.Perm.refl _
  | cons x xs ih =>
      show (insertBy key x (sortBy key xs)).Perm (x :: xs)
      exact (insertBy_perm key x (sortBy key xs)).trans (List.Perm.cons x ih)

theorem insertBy_sorted {α : Type} (key : α → Nat) (x : α) (l : List α)
    (h : List.Pairwise (fun a b => key a ≤ key b) l) :
    List.Pairwise (fun a b => key a ≤ key b) (insertBy key x l) := by
  induction l with
  | nil => simp [insertBy]
  | cons y ys ih =>
      rw [List.pairwise_cons] at h
      obtain ⟨h1, h2⟩ := h
      unfold insertBy
      split
      · rename_i hxy
        constructor
        · intro z hz
          rcases List.mem_cons.mp hz with rfl | hz'
          · exact hxy
          · exact le_trans hxy (h1 z hz')
        · exact List.pairwise_cons.mpr ⟨h1, h2⟩
      · rename_i hxy
        have hyx : key y ≤ key x := le_of_not_le hxy
        constructor
        · intro z hz
          rcases (insertBy_mem key x ys z).mp hz with rfl | hz'
          · exact hyx
          · exact h1 z hz'
        · exact ih h2

theorem sortBy_sorted {α : Type} (key : α → Nat) (l : List α) :
    List.Pairwise (fun a b => key a ≤ key b) (sortBy key l) := by
  induction l with
  | nil => exact List.Pairwise.nil
  | cons x xs ih => exact insertBy_sorted key x (sortBy key xs) ih

/-- C8 amended: the predominant behavior is the label of the first entry,
in the per-track dict's insertion order, whose count attains the maximal
per-track count -- ties are broken by first insertion (first observation)
order, not by a lexical order -- and pig_summaries is sorted by ascending
clean id. -/
theorem C8_predominant_first_insertion (dist : ℚ × ℚ → ℚ × ℚ → ℚ) (fps : ℚ)
    (frames : List (List Obs)) :
    (∀ l : List (Behavior × Nat), l ≠ [] →
        l.find? (fun q => decide (maxCount l ≤ q.2)) = some (maxKey l, maxCount l))
    ∧ List.Pairwise (fun a b : PigSummary => a.pig_id ≤ b.pig_id)
        (analyze_video_data dist fps frames).pig_summaries := by
  constructor
  · exact maxKey_first_max
  · show List.Pairwise _ (sortBy PigSummary.pig_id _)
    exact sortBy_sorted PigSummary.pig_id _

/-- Witness for the amended C8 on the tied counter dict Walking 1,
Drinking 1: the scan selects Walking, the first-inserted maximal label. -/
theorem C8_predominant_first_insertion_witness :
    ([(Behavior.Walking, 1), (Behavior.Drinking, 1)] : List (Behavior × Nat)).find?
        (fun q => decide (maxCount [(Behavior.Walking, 1), (Behavior.Drinking, 1)] ≤ q.2))
      = some (maxKey [(Behavior.Walking, 1), (Behavior.Drinking, 1)],
              maxCount [(Behavior.Walking, 1), (Behavior.Drinking, 1)]) :=
  (C8_predominant_first_insertion dist1 30 []).1
    [(Behavior.Walking, 1), (Behavior.Drinking, 1)] (by decide)

/-- Modelled from the spec: the spec breaks predominant-behavior ties by
a fixed lexical order over labels; BEHAVIOR_CLASSES is in lexical order,
so the lexically-least maximal label is the first label of that list
attaining the maximal count. -/
def lexPredominant (l : List (Behavior × Nat)) : Behavior :=
  (BEHAVIOR_CLASSES.filter (fun b => decide (alookup l b = some (maxCount l)))).headD
    Behavior.Drinking

/-- The ten-frame video of the C8 counterexample: one pig, classified
Walking on analyzed frame 5 and Drinking on analyzed frame 10. -/
def frames8 : List (List Obs) :=
  [[], [], [], [], [⟨7, 0, 0, some Behavior.Walking⟩],
   [], [], [], [], [⟨7, 0, 0, some Behavior.Drinking⟩]]

/-- C8 counterexample: in the fps = 30 session over frames8, pig 1 ends
with tied counts Walking 1, Drinking 1; the code reports predominant
behavior Walking (first insertion), while the claimed lexical tie-break
would select Drinking. -/
theorem C8_counterexample :
    mkConfig 30 = ⟨60, 60⟩
    ∧ (finalize (frames8.foldl (stepFrame dist1 ⟨60, 60⟩) initState)).pig_summaries.map
        (fun p => (p.pig_id, p.predominant_behavior, p.behavior_counts))
      = [(1, Behavior.Walking, [(Behavior.Walking, 1), (Behavior.Drinking, 1)])]
    ∧ lexPredominant [(Behavior.Walking, 1), (Behavior.Drinking, 1)] = Behavior.Drinking
    ∧ Behavior.Walking ≠ Behavior.Drinking
    ∧ analyze_video_data dist1 30 frames8
      = finalize (frames8.foldl (stepFrame dist1 ⟨60, 60⟩) initState) := by
  refine ⟨by with_unfolding_all decide, by with_unfolding_all decide, by decide,
    by decide, ?_⟩
  simp only [analyze_video_data]
  rw [(by with_unfolding_all decide : mkConfig 30 = (⟨60, 60⟩ : Config))]

/-! ### C9: streaming candidate selection (live_stream, lines 407-468) -/

/-- One raw detector candidate of a streamed frame, carrying also the
classification the external model would produce for its crop (label and
classifier confidence, consumed at lines 457-468). -/
structure Det where
  x1 : Nat
  y1 : Nat
  x2 : Nat
  y2 : Nat
  raw_id : Int
  conf : ℚ
  cls_label : Behavior
  cls_conf : ℚ
deriving DecidableEq

/-- One detection record of the streaming response (lines 463-468). -/
structure LiveDet where
  box : Nat × Nat × Nat × Nat
  behavior : Behavior
  confidence : ℚ
  pig_id : Nat
deriving DecidableEq

/-- Insertion step of a descending sort by detector confidence: the new
element goes in front of the first strictly less confident one (equal
confidences keep their original relative order, like Python's stable
sorted with reverse=True). -/
def insertDesc (x : Det) : List Det → List Det
  | [] => [x]
  | y :: ys => if y.conf < x.conf then x :: y :: ys else y :: insertDesc x ys

/-- sorted(zip(boxes, ids, confidences), key=confidence, reverse=True);
the duplicated sorted block at lines 426-431 recomputes the same value
from the same inputs. -/
def sortByConfDesc (l : List Det) : List Det := l.foldr insertDesc []

/-- Lines 419-431: rank candidates by descending confidence, keep the
first max_pigs. -/
def liveSelect (max_pigs : Nat) (dets : List Det) : List Det :=
  (sortByConfDesc dets).take max_pigs

/-- numpy crop emptiness for a box on a W x H frame: slicing clips to
the frame, and the crop is non-empty when both clipped ranges are. -/
def cropNonempty (W H : Nat) (d : Det) : Bool :=
  decide (min d.y1 H < min d.y2 H) && decide (min d.x1 W < min d.x2 W)

/-- The body of the loop over pig_data (lines 433-450): resolve a clean
id (0 for the -1 sentinel), then -- when the crop is non-empty and its
area is at least 100 -- queue one record for the batched classification,
which line 457-468 turns into the response detections in the same
order. -/
def liveStep (W H : Nat) (acc : IdMapper × List LiveDet) (d : Det) :
    IdMapper × List LiveDet :=
  let pr := if d.raw_id ≠ -1 then get_clean_pig_id acc.1 d.raw_id else (0, acc.1)
  if cropNonempty W H d then
    if (d.x2 - d.x1) * (d.y2 - d.y1) < 100 then (pr.2, acc.2)
    else (pr.2, acc.2 ++ [⟨(d.x1, d.y1, d.x2, d.y2), d.cls_label, d.cls_conf, pr.1⟩])
  else (pr.2, acc.2)

/-- Per-frame streaming pipeline from the detector output: selection,
id resolution, crop filtering, batched classification, response
detections. -/
def liveProcess (W H : Nat) (m : IdMapper) (max_pigs : Nat) (dets : List Det) :
    IdMapper × List LiveDet :=
  (liveSelect max_pigs dets).foldl (liveStep W H) (m, [])

theorem liveStep_length (W H : Nat) (acc : IdMapper × List LiveDet) (d : Det) :
    ((liveStep W H acc d).2).length ≤ acc.2.length + 1 := by
  unfold liveStep
  dsimp only
  split
  · split
    · simp
    · simp
  · simp

theorem foldl_liveStep_length (W H : Nat) (sel : List Det) :
    ∀ acc : IdMapper × List LiveDet,
      ((sel.foldl (liveStep W H) acc).2).length ≤ acc.2.length + sel.length := by
  induction sel with
  | nil => intro acc; exact le_refl _
  | cons d ds ih =>
      intro acc
      calc ((ds.foldl (liveStep W H) (liveStep W H acc d)).2).length
          ≤ (liveStep W H acc d).2.length + ds.length := ih _
        _ ≤ acc.2.length + 1 + ds.length :=
            Nat.add_le_add_right (liveStep_length W H acc d) _
        _ = acc.2.length + (d :: ds).length := by simp [List.length_cons]; omega

theorem insertDesc_mem (x : Det) (l : List Det) (z : Det) :
    z ∈ insertDesc x l ↔ z = x ∨ z ∈ l := by
  induction l with
  | nil => simp [insertDesc]
  | cons y ys ih =>
      unfold insertDesc
      split
      · simp only [List.mem_cons]
      · simp only [List.mem_cons, ih]
        tauto

theorem insertDesc_perm (x : Det) (l : List Det) :
    (insertDesc x l).Perm (x :: l) := by
  induction l with
  | nil => exact List.Perm.refl _
  | cons y ys ih =>
      unfold insertDesc
      split
      · exact List.Perm.refl _
      · exact (List.Perm.cons y ih).trans (List.Perm.swap x y ys)

theorem sortByConfDesc_perm (l : List Det) : (sortByConfDesc l).Perm l := by
  induction l with
  | nil => exact List.Perm.refl _
  | cons x xs ih =>
      show (insertDesc x (sortByConfDesc xs)).Perm (x :: xs)
      exact (insertDesc_perm x (sortByConfDesc xs)).trans (List.Perm.cons x ih)

theorem insertDesc_pairwise (x : Det) (l : List Det)
    (h : List.Pairwise (fun a b : Det => b.conf ≤ a.conf) l) :
    List.Pairwise (fun a b : Det => b.conf ≤ a.conf) (insertDesc x l) := by
  induction l with
  | nil => simp [insertDesc]
  | cons y ys ih =>
      rw [List.pairwise_cons] at h
      obtain ⟨h1, h2⟩ := h
      unfold insertDesc
      split
      · rename_i hyx
        constructor
        · intro z hz
          rcases List.mem_cons.mp hz with rfl | hz'
          · exact le_of_lt hyx
          · exact le_trans (h1 z hz') (le_of_lt hyx)
        · exact List.pairwise_cons.mpr ⟨h1, h2⟩
      · rename_i hyx
        have hxy : x.conf ≤ y.conf := not_lt.mp hyx
        constructor
        · intro z hz
          rcases (insertDesc_mem x ys z).mp hz with rfl | hz'
          · exact hxy
          · exact h1 z hz'
        · exact ih h2

theorem sortByConfDesc_pairwise (l : List Det) :
    List.Pairwise (fun a b : Det => b.conf ≤ a.conf) (sortByConfDesc l) := by
  induction l with
  | nil => exact List.Pairwise.nil
  | cons x xs ih => exact insertDesc_pairwise x (sortByConfDesc xs) ih

/-- Detector confidence 0.9. -/
def c09 : ℚ := Rat.mk' 9 10 (by decide) (by norm_num)

/-- Detector confidence 0.8. -/
def c08 : ℚ := Rat.mk' 4 5 (by decide) (by norm_num)

/-- Detector confidence 0.7. -/
def c07 : ℚ := Rat.mk' 7 10 (by decide) (by norm_num)

/-- Detector confidence 0.6. -/
def c06 : ℚ := Rat.mk' 3 5 (by decide) (by norm_num)

/-- Detector confidence 0.5. -/
def c05 : ℚ := Rat.mk' 1 2 (by decide) (by norm_num)

/-- The five candidates of the concrete C9 scenario, presented to the
pipeline out of confidence order; all boxes are large (area at least
100) and inside a 640 x 640 frame. -/
def dets5 : List Det :=
  [⟨100, 100, 150, 150, 13, c07, Behavior.Lying, c07⟩,
   ⟨0, 0, 50, 50, 11, c09, Behavior.Walking, c09⟩,
   ⟨300, 300, 350, 350, 15, c05, Behavior.Sleeping, c05⟩,
   ⟨200, 200, 250, 250, 12, c08, Behavior.Eating, c08⟩,
   ⟨400, 400, 450, 450, 14, c06, Behavior.Drinking, c06⟩]

/-- C9: the streaming pipeline emits at most max_pigs detections per
frame, candidate ranking is a permutation of the detector output sorted
by descending confidence, and on the concrete frame with five candidates
of confidences 0.9 .. 0.5 and max_pigs = 2 the response holds exactly
the 0.9 and 0.8 detections, with resolved clean ids 1 and 2. -/
theorem C9_streaming_selection :
    (∀ (W H : Nat) (m : IdMapper) (max_pigs : Nat) (dets : List Det),
        (liveProcess W H m max_pigs dets).2.length ≤ max_pigs
        ∧ (sortByConfDesc dets).Perm dets
        ∧ List.Pairwise (fun a b : Det => b.conf ≤ a.conf) (liveSelect max_pigs dets))
    ∧ (c09 = 9 / 10 ∧ c08 = 8 / 10 ∧ c07 = 7 / 10 ∧ c06 = 6 / 10 ∧ c05 = 5 / 10)
    ∧ dets5.map Det.conf = [c07, c09, c05, c08, c06]
    ∧ (liveProcess 640 640 reset_id_mapper 2 dets5).2
      = [⟨(0, 0, 50, 50), Behavior.Walking, c09, 1⟩,
         ⟨(200, 200, 250, 250), Behavior.Eating, c08, 2⟩]
    ∧ (liveProcess 640 640 reset_id_mapper 2 dets5).1.id_mapper = [(11, 1), (12, 2)] := by
  refine ⟨?_, ⟨?_, ?_, ?_, ?_, ?_⟩, rfl, ?_, ?_⟩
  · intro W H m max_pigs dets
    refine ⟨?_, sortByConfDesc_perm dets, ?_⟩
    · have h1 := foldl_liveStep_length W H (liveSelect max_pigs dets) (m, [])
      have h2 : (liveSelect max_pigs dets).length ≤ max_pigs := by
        unfold liveSelect
        rw [List.length_take]
        exact min_le_left _ _
      simpa using le_trans h1 (by simpa using h2)
    · exact List.Pairwise.sublist (List.take_sublist _ _) (sortByConfDesc_pairwise dets)
  · norm_num [c09, Rat.mk'_eq_divInt, Rat.divInt_eq_div]
  · norm_num [c08, Rat.mk'_eq_divInt, Rat.divInt_eq_div]
  · norm_num [c07, Rat.mk'_eq_divInt, Rat.divInt_eq_div]
  · norm_num [c06, Rat.mk'_eq_divInt, Rat.divInt_eq_div]
  · norm_num [c05, Rat.mk'_eq_divInt, Rat.divInt_eq_div]
  · with_unfolding_all decide
  · with_unfolding_all decide

/-! ### C10: an always-unclassified pig is absent from pig_summaries -/

theorem alookup_eq_none {κ α : Type} [DecidableEq κ] (l : List (κ × α)) (k : κ) :
    alookup l k = none ↔ k ∉ l.map Prod.fst := by
  induction l with
  | nil => simp [alookup]
  | cons p rest ih =>
      rcases p with ⟨k', v⟩
      unfold alookup
      by_cases hk : k' = k
      · subst hk
        simp
      · rw [if_neg hk]
        simp [ih, hk, Ne.symm hk]

theorem alookup_append_singleton_ne {κ α : Type} [DecidableEq κ]
    (l : List (κ × α)) (k key : κ) (v : α) (h : k ≠ key) :
    alookup (l ++ [(k, v)]) key = alookup l key := by
  induction l with
  | nil => simp [alookup, h]
  | cons p rest ih =>
      rcases p with ⟨k', v'⟩
      show (if k' = key then some v' else alookup (rest ++ [(k, v)]) key)
          = (if k' = key then some v' else alookup rest key)
      split
      · rfl
      · exact ih

theorem alookup_append_singleton_self {κ α : Type} [DecidableEq κ]
    (l : List (κ × α)) (k : κ) (v : α) (h : alookup l k = none) :
    alookup (l ++ [(k, v)]) k = some v := by
  induction l with
  | nil => simp [alookup]
  | cons p rest ih =>
      rcases p with ⟨k', v'⟩
      have h' : (if k' = k then some v' else alookup rest k) = none := h
      show (if k' = k then some v' else alookup (rest ++ [(k, v)]) k) = some v
      by_cases hk : k' = k
      · rw [if_pos hk] at h'
        exact absurd h' (by simp)
      · rw [if_neg hk] at h'
        rw [if_neg hk]
        exact ih h'

theorem alookup_aset_ne {κ α : Type} [DecidableEq κ]
    (l : List (κ × α)) (k key : κ) (v : α) (h : k ≠ key) :
    alookup (aset l k v) key = alookup l key := by
  induction l with
  | nil => simp [aset, alookup, h]
  | cons p rest ih =>
      rcases p with ⟨k', v'⟩
      unfold aset
      by_cases hk : k' = k
      · rw [if_pos hk]
        show (if k' = key then some v else alookup rest key)
            = (if k' = key then some v' else alookup rest key)
        rw [if_neg (by rw [hk]; exact h), if_neg (by rw [hk]; exact h)]
      · rw [if_neg hk]
        show (if k' = key then some v' else alookup (aset rest k v) key)
            = (if k' = key then some v' else alookup rest key)
        split
        · rfl
        · exact ih

theorem mem_keys_aset {κ α : Type} [DecidableEq κ]
    (l : List (κ × α)) (k key : κ) (v : α)
    (h : key ∈ (aset l k v).map Prod.fst) : key ∈ l.map Prod.fst ∨ key = k := by
  induction l with
  | nil =>
      simp [aset] at h
      exact Or.inr h
  | cons p rest ih =>
      rcases p with ⟨k', v'⟩
      unfold aset at h
      simp only [List.map_cons, List.mem_cons]
      by_cases hk : k' = k
      · rw [if_pos hk] at h
        simp only [List.map_cons, List.mem_cons] at h
        tauto
      · rw [if_neg hk] at h
        simp only [List.map_cons, List.mem_cons] at h
        rcases h with h | h
        · tauto
        · rcases ih h with h' | h' <;> tauto

theorem alookup_pairsFrom_lt (seen : List Int) :
    ∀ (k : Nat) (x : Int) (c : Nat),
      alookup (pairsFrom k seen) x = some c → k ≤ c ∧ c < k + seen.length := by
  induction seen with
  | nil => intro k x c h; exact absurd h (by simp [pairsFrom, alookup])
  | cons y ys ih =>
      intro k x c h
      unfold pairsFrom alookup at h
      by_cases hy : y = x
      · rw [if_pos hy] at h
        injection h with h
        subst h
        simp
      · rw [if_neg hy] at h
        obtain ⟨h1, h2⟩ := ih (k + 1) x c h
        constructor
        · omega
        · simp only [List.length_cons]
          omega

theorem alookup_pairsFrom_inj (seen : List Int) :
    ∀ (k : Nat) (x y : Int) (c : Nat), seen.Nodup →
      alookup (pairsFrom k seen) x = some c →
      alookup (pairsFrom k seen) y = some c → x = y := by
  induction seen with
  | nil => intro k x y c _ h; exact absurd h (by simp [pairsFrom, alookup])
  | cons z zs ih =>
      intro k x y c hnd hx hy
      rw [List.nodup_cons] at hnd
      unfold pairsFrom alookup at hx hy
      by_cases hzx : z = x
      · rw [if_pos hzx] at hx
        injection hx with hx
        by_cases hzy : z = y
        · rw [← hzx, ← hzy]
        · rw [if_neg hzy] at hy
          obtain ⟨h1, _⟩ := alookup_pairsFrom_lt zs (k + 1) y c hy
          omega
      · rw [if_neg hzx] at hx
        by_cases hzy : z = y
        · rw [if_pos hzy] at hy
          injection hy with hy
          obtain ⟨h1, _⟩ := alookup_pairsFrom_lt zs (k + 1) x c hx
          omega
        · rw [if_neg hzy] at hy
          exact ih (k + 1) x y c hnd.2 hx hy

/-- Well-formedness of the global id mapper: its dict pairs some
duplicate-free first-appearance list of raw ids with clean ids 1, 2, ...
and its counter is one past the number of assigned ids. -/
def MapperWF (m : IdMapper) : Prop :=
  ∃ seen : List Int, seen.Nodup ∧ m.id_mapper = pairsFrom 1 seen
    ∧ m.next_clean_id = seen.length + 1

theorem get_clean_pig_id_WF (m : IdMapper) (rid : Int) (h : MapperWF m) :
    MapperWF (get_clean_pig_id m rid).2
    ∧ (get_clean_pig_id m rid).1 < (get_clean_pig_id m rid).2.next_clean_id
    ∧ m.next_clean_id ≤ (get_clean_pig_id m rid).2.next_clean_id
    ∧ (∀ (x : Int) (c : Nat), alookup (get_clean_pig_id m rid).2.id_mapper x = some c →
        alookup m.id_mapper x = some c ∨ (x = rid ∧ c = m.next_clean_id)) := by
  obtain ⟨seen, hnd, hmap, hnext⟩ := h
  unfold get_clean_pig_id
  cases hl : alookup m.id_mapper rid with
  | some c0 =>
      dsimp only
      have hlt : c0 < m.next_clean_id := by
        rw [hmap] at hl
        obtain ⟨_, h2⟩ := alookup_pairsFrom_lt seen 1 rid c0 hl
        omega
      exact ⟨⟨seen, hnd, hmap, hnext⟩, hlt, le_refl _, fun x c hx => Or.inl hx⟩
  | none =>
      dsimp only
      have hrid : rid ∉ seen := by
        rw [hmap, alookup_eq_none, pairsFrom_map_fst] at hl
        exact hl
      refine ⟨⟨seen ++ [rid], ?_, ?_, ?_⟩, by omega, by omega, ?_⟩
      · simp [List.nodup_append, hnd, hrid]
      · show m.id_mapper ++ [(rid, m.next_clean_id)] = pairsFrom 1 (seen ++ [rid])
        rw [pairsFrom_append, hmap, hnext, Nat.add_comm 1 seen.length]
      · simp [hnext]
      · intro x c hx
        show alookup m.id_mapper x = some c ∨ _
        by_cases hxr : x = rid
        · subst hxr
          right
          refine ⟨rfl, ?_⟩
          rw [alookup_append_singleton_self m.id_mapper x m.next_clean_id hl] at hx
          injection hx with hx
          exact hx.symm
        · left
          rw [alookup_append_singleton_ne _ _ _ _ (Ne.symm hxr)] at hx
          exact hx

/-- The C10 invariant for a fixed raw id r whose crop is empty on every
analyzed frame: the mapper is well formed, r's clean id (when assigned)
has no entry in pig_behavior_history, and every history key is an
already-assigned clean id. -/
def UnclassifiedInv (r : Int) (s : BatchState) : Prop :=
  MapperWF s.mapper
  ∧ (∀ c, alookup s.mapper.id_mapper r = some c →
      alookup s.pig_behavior_history c = none)
  ∧ (∀ c ∈ s.pig_behavior_history.map Prod.fst, c < s.mapper.next_clean_id)

theorem processObs_mapper_history (dist : ℚ × ℚ → ℚ × ℚ → ℚ) (cfg : Config)
    (s : BatchState) (o : Obs) :
    (processObs dist cfg s o).mapper = (get_clean_pig_id s.mapper o.raw_id).2
    ∧ (o.behavior = none →
        (processObs dist cfg s o).pig_behavior_history = s.pig_behavior_history)
    ∧ (∀ b, o.behavior = some b →
        (processObs dist cfg s o).pig_behavior_history
          = aset s.pig_behavior_history (get_clean_pig_id s.mapper o.raw_id).1
              (bumpCount (agetD s.pig_behavior_history
                (get_clean_pig_id s.mapper o.raw_id).1 []) b)) := by
  rcases o with ⟨rid, cx, cy, ob⟩
  simp only [processObs]
  cases ob <;>
  · dsimp only
    generalize (agetD s.track_history (get_clean_pig_id s.mapper rid).1
        ([] : List (ℚ × ℚ))).getLast? = pv
    cases pv <;>
    · dsimp only
      refine ⟨rfl, ?_, ?_⟩
      · intro h
        first
        | rfl
        | exact Option.noConfusion h
      · intro b hb
        first
        | exact Option.noConfusion hb
        | (injection hb with hb2; subst hb2; rfl)

theorem get_clean_ne_of_other (m : IdMapper) (hWF : MapperWF m) (rid r : Int)
    (hne : rid ≠ r) (c : Nat) (hc : alookup m.id_mapper r = some c) :
    (get_clean_pig_id m rid).1 ≠ c := by
  obtain ⟨seen, hnd, hmap, hnext⟩ := hWF
  unfold get_clean_pig_id
  cases hl : alookup m.id_mapper rid with
  | some c0 =>
      dsimp only
      intro he
      subst he
      rw [hmap] at hl hc
      exact hne (alookup_pairsFrom_inj seen 1 rid r c0 hnd hl hc)
  | none =>
      dsimp only
      intro he
      rw [hmap] at hc
      obtain ⟨_, h2⟩ := alookup_pairsFrom_lt seen 1 r c hc
      omega

theorem processObs_unclassified (dist : ℚ × ℚ → ℚ × ℚ → ℚ) (cfg : Config)
    (r : Int) (s : BatchState) (o : Obs)
    (ho : o.raw_id = r → o.behavior = none)
    (h : UnclassifiedInv r s) : UnclassifiedInv r (processObs dist cfg s o) := by
  obtain ⟨hWF, hnone, hbound⟩ := h
  obtain ⟨hm, hhist_none, hhist_some⟩ := processObs_mapper_history dist cfg s o
  obtain ⟨hWF', hcid_lt, hnext_le, hlook⟩ := get_clean_pig_id_WF s.mapper o.raw_id hWF
  refine ⟨by rw [hm]; exact hWF', ?_, ?_⟩
  · intro c hc
    rw [hm] at hc
    cases hb : o.behavior with
    | none =>
        rw [hhist_none hb]
        rcases hlook r c hc with hold | ⟨_, hcn⟩
        · exact hnone c hold
        · subst hcn
          rw [alookup_eq_none]
          intro hmem
          exact absurd (hbound _ hmem) (by omega)
    | some b =>
        have hrne : o.raw_id ≠ r := by
          intro he
          have := ho he
          rw [hb] at this
          exact Option.noConfusion this
        rw [hhist_some b hb]
        rcases hlook r c hc with hold | ⟨hxr, _⟩
        · have hcid : (get_clean_pig_id s.mapper o.raw_id).1 ≠ c :=
            get_clean_ne_of_other s.mapper hWF o.raw_id r hrne c hold
          rw [alookup_aset_ne _ _ _ _ hcid]
          exact hnone c hold
        · exact absurd hxr.symm hrne
  · intro c hcmem
    rw [hm]
    cases hb : o.behavior with
    | none =>
        rw [hhist_none hb] at hcmem
        exact lt_of_lt_of_le (hbound c hcmem) hnext_le
    | some b =>
        rw [hhist_some b hb] at hcmem
        rcases mem_keys_aset _ _ _ _ hcmem with hmem | rfl
        · exact lt_of_lt_of_le (hbound c hmem) hnext_le
        · exact hcid_lt

theorem foldl_processObs_unclassified (dist : ℚ × ℚ → ℚ × ℚ → ℚ) (cfg : Config)
    (r : Int) (obs : List Obs) :
    ∀ s : BatchState, (∀ o ∈ obs, o.raw_id = r → o.behavior = none) →
      UnclassifiedInv r s →
      UnclassifiedInv r (obs.foldl (processObs dist cfg) s) := by
  induction obs with
  | nil => intro s _ h; exact h
  | cons o os ih =>
      intro s ho h
      exact ih (processObs dist cfg s o)
        (fun o' ho' => ho o' (List.mem_cons_of_mem o ho'))
        (processObs_unclassified dist cfg r s o (ho o (List.mem_cons_self o os)) h)

theorem stepFrame_unclassified (dist : ℚ × ℚ → ℚ × ℚ → ℚ) (cfg : Config)
    (r : Int) (s : BatchState) (obs : List Obs)
    (ho : ∀ o ∈ obs, o.raw_id = r → o.behavior = none)
    (h : UnclassifiedInv r s) : UnclassifiedInv r (stepFrame dist cfg s obs) := by
  simp only [stepFrame]
  split <;> split <;>
    first
    | exact h
    | exact foldl_processObs_unclassified dist cfg r obs _ ho h

theorem foldl_stepFrame_unclassified (dist : ℚ × ℚ → ℚ × ℚ → ℚ) (cfg : Config)
    (r : Int) (frames : List (List Obs)) :
    ∀ s : BatchState,
      (∀ f ∈ frames, ∀ o ∈ f, o.raw_id = r → o.behavior = none) →
      UnclassifiedInv r s →
      UnclassifiedInv r (frames.foldl (stepFrame dist cfg) s) := by
  induction frames with
  | nil => intro s _ h; exact h
  | cons f fs ih =>
      intro s hf h
      exact ih (stepFrame dist cfg s f)
        (fun f' hf' => hf f' (List.mem_cons_of_mem f hf'))
        (stepFrame_unclassified dist cfg r s f (hf f (List.mem_cons_self f fs)) h)

theorem initState_unclassified (r : Int) : UnclassifiedInv r initState := by
  refine ⟨⟨[], List.nodup_nil, rfl, rfl⟩, ?_, ?_⟩
  · intro c hc
    exact Option.noConfusion hc
  · intro c hc
    exact absurd hc (List.not_mem_nil c)

/-- Ten frames in which the only pig (raw id 7) is present on both
analyzed frames (5 and 10) but its crop never yields a classification. -/
def framesX : List (List Obs) :=
  [[], [], [], [], [⟨7, 0, 0, none⟩], [], [], [], [], [⟨7, 0, 0, none⟩]]

/-- C10: a pig that is observed (so it holds a clean id and is counted
in bucket presence) but never classified -- its crop is empty on every
analyzed frame -- is absent from pig_summaries and not counted in
total_unique_pigs (which equals the number of summaries); in the
concrete ten-frame fps = 5 run framesX the pig contributes pig_count 1
to both emitted buckets yet pig_summaries is empty and
total_unique_pigs is 0. -/
theorem C10_unclassified_pig (dist : ℚ × ℚ → ℚ × ℚ → ℚ) (cfg : Config)
    (frames : List (List Obs)) (r : Int) (c : Nat)
    (h : ∀ f ∈ frames, ∀ o ∈ f, o.raw_id = r → o.behavior = none)
    (hc : alookup ((frames.foldl (stepFrame dist cfg) initState)).mapper.id_mapper r
        = some c) :
    (∀ ps ∈ (finalize (frames.foldl (stepFrame dist cfg) initState)).pig_summaries,
        ps.pig_id ≠ c)
    ∧ (finalize (frames.foldl (stepFrame dist cfg) initState)).total_unique_pigs
        = (finalize (frames.foldl (stepFrame dist cfg) initState)).pig_summaries.length
    ∧ mkConfig 5 = ⟨10, 10⟩
    ∧ (finalize (framesX.foldl (stepFrame dist1 ⟨10, 10⟩) initState)).pig_summaries = []
    ∧ (finalize (framesX.foldl (stepFrame dist1 ⟨10, 10⟩) initState)).total_unique_pigs = 0
    ∧ (finalize (framesX.foldl (stepFrame dist1 ⟨10, 10⟩) initState)).time_series.map
        (fun b => b.pig_count) = [1, 1] := by
  have hinv := foldl_stepFrame_unclassified dist cfg r frames initState h
    (initState_unclassified r)
  obtain ⟨hWF, hnone, hbound⟩ := hinv
  have hhc := hnone c hc
  refine ⟨?_, ?_, by with_unfolding_all decide, by with_unfolding_all decide,
    by with_unfolding_all decide, by with_unfolding_all decide⟩
  · intro ps hps
    have hps2 : ps ∈ ((frames.foldl (stepFrame dist cfg) initState)
        |>.pig_behavior_history.map (fun pb =>
          ({ pig_id := pb.1
             predominant_behavior := maxKey pb.2
             behavior_counts := pb.2
             is_lethargic := decide (pb.1 ∈ (frames.foldl (stepFrame dist cfg)
               initState).lethargic_pigs)
             is_limping := decide (pb.1 ∈ (frames.foldl (stepFrame dist cfg)
               initState).limping_pigs) } : PigSummary))) :=
      (sortBy_perm PigSummary.pig_id _).mem_iff.mp hps
    obtain ⟨pb, hpb, hpbe⟩ := List.mem_map.mp hps2
    intro hpc
    have : pb.1 ∈ (frames.foldl (stepFrame dist cfg)
        initState).pig_behavior_history.map Prod.fst :=
      List.mem_map_of_mem Prod.fst hpb
    rw [← hpbe] at hpc
    dsimp only at hpc
    rw [hpc] at this
    rw [alookup_eq_none] at hhc
    exact hhc this
  · show (frames.foldl (stepFrame dist cfg) initState).pig_behavior_history.length
        = (sortBy PigSummary.pig_id _).length
    rw [(sortBy_perm PigSummary.pig_id _).length_eq, List.length_map]

/-- Witness for C10 at the concrete framesX run: raw id 7 resolves to
clean id 1, and the report counts as many unique pigs as it emits
summaries. -/
theorem C10_unclassified_pig_witness :
    (finalize (framesX.foldl (stepFrame dist1 (⟨10, 10⟩ : Config)) initState)).total_unique_pigs
      = (finalize (framesX.foldl (stepFrame dist1 (⟨10, 10⟩ : Config))
          initState)).pig_summaries.length :=
  (C10_unclassified_pig dist1 ⟨10, 10⟩ framesX 7 1 (by decide)
    (by with_unfolding_all decide)).2.1

/-! ### C3: the bucket timeline of a 130-frame fps = 30 session -/

theorem insertSet_ne_nil (l : List Nat) (x : Nat) : insertSet l x ≠ [] := by
  unfold insertSet
  split
  · exact List.ne_nil_of_mem (by assumption)
  · simp

theorem processObs_frame_fields (dist : ℚ × ℚ → ℚ × ℚ → ℚ) (cfg : Config)
    (s : BatchState) (o : Obs) :
    (processObs dist cfg s o).frame_count = s.frame_count
    ∧ (processObs dist cfg s o).current_interval = s.current_interval
    ∧ (processObs dist cfg s o).time_series = s.time_series
    ∧ (processObs dist cfg s o).interval_pig_ids
        = insertSet s.interval_pig_ids (get_clean_pig_id s.mapper o.raw_id).1 := by
  rcases o with ⟨rid, cx, cy, ob⟩
  simp only [processObs]
  cases ob <;>
  · dsimp only
    generalize (agetD s.track_history (get_clean_pig_id s.mapper rid).1
        ([] : List (ℚ × ℚ))).getLast? = pv
    cases pv <;> exact ⟨rfl, rfl, rfl, rfl⟩

theorem foldl_processObs_frame_fields (dist : ℚ × ℚ → ℚ × ℚ → ℚ) (cfg : Config)
    (obs : List Obs) :
    ∀ s : BatchState,
      (obs.foldl (processObs dist cfg) s).frame_count = s.frame_count
      ∧ (obs.foldl (processObs dist cfg) s).current_interval = s.current_interval
      ∧ (obs.foldl (processObs dist cfg) s).time_series = s.time_series
      ∧ ((obs ≠ [] ∨ s.interval_pig_ids ≠ []) →
          (obs.foldl (processObs dist cfg) s).interval_pig_ids ≠ []) := by
  induction obs with
  | nil =>
      intro s
      refine ⟨rfl, rfl, rfl, ?_⟩
      rintro (h | h)
      · exact absurd rfl h
      · exact h
  | cons o os ih =>
      intro s
      obtain ⟨h1, h2, h3, h4⟩ := processObs_frame_fields dist cfg s o
      obtain ⟨g1, g2, g3, g4⟩ := ih (processObs dist cfg s o)
      refine ⟨by rw [List.foldl_cons, g1, h1], by rw [List.foldl_cons, g2, h2],
        by rw [List.foldl_cons, g3, h3], ?_⟩
      intro _
      rw [List.foldl_cons]
      refine g4 (Or.inr ?_)
      rw [h4]
      exact insertSet_ne_nil _ _

/-- The C3 loop invariant of the fps = 30 session (frames_per_interval
60): after n raw frames the counter is n, one bucket has been emitted
per completed 60-frame window with labels "0s", "2s", ..., and once at
least 5 frames of the open window have passed (so it contains an
analyzed frame), the open window has observed pigs. -/
def TimelineInv (s : BatchState) (n : Nat) : Prop :=
  s.frame_count = n
  ∧ s.current_interval = n / 60
  ∧ s.time_series.map BucketOut.time
      = (List.range (n / 60)).map (fun i => toString (i * 2) ++ "s")
  ∧ (5 ≤ n % 60 → s.interval_pig_ids ≠ [])

theorem stepFrame_timeline (dist : ℚ × ℚ → ℚ × ℚ → ℚ) (s : BatchState) (n : Nat)
    (obs : List Obs) (hobs : obs ≠ []) (h : TimelineInv s n) :
    TimelineInv (stepFrame dist ⟨60, 60⟩ s obs) (n + 1) := by
  obtain ⟨hfc, hci, hts, hne⟩ := h
  simp only [stepFrame]
  dsimp only
  rw [hfc]
  by_cases hclose : (n + 1) % 60 = 0
  · rw [if_pos hclose]
    have h5 : ¬ (n + 1) % 5 ≠ 0 := by omega
    rw [show (closeBucket { s with frame_count := n + 1 }).frame_count = n + 1 from rfl]
    rw [if_neg h5]
    obtain ⟨g1, g2, g3, g4⟩ :=
      foldl_processObs_frame_fields dist ⟨60, 60⟩ obs (closeBucket
        { s with frame_count := n + 1 })
    refine ⟨by rw [g1]; rfl, ?_, ?_, ?_⟩
    · rw [g2]
      show s.current_interval + 1 = (n + 1) / 60
      rw [hci]
      omega
    · rw [g3]
      show (s.time_series ++ [mkBucket { s with frame_count := n + 1 }]).map
          BucketOut.time = _
      have hdiv : (n + 1) / 60 = n / 60 + 1 := by omega
      rw [List.map_append, hts, hdiv, List.range_succ, List.map_append]
      simp only [List.map_cons, List.map_nil]
      show _ ++ [toString (s.current_interval * 2) ++ "s"] = _
      rw [hci]
    · intro _
      exact g4 (Or.inl hobs)
  · rw [if_neg hclose]
    have hdiv : (n + 1) / 60 = n / 60 := by omega
    by_cases h5 : (n + 1) % 5 = 0
    · rw [if_neg (by omega : ¬ (n + 1) % 5 ≠ 0)]
      obtain ⟨g1, g2, g3, g4⟩ :=
        foldl_processObs_frame_fields dist ⟨60, 60⟩ obs { s with frame_count := n + 1 }
      refine ⟨by rw [g1], ?_, ?_, ?_⟩
      · rw [g2]
        show s.current_interval = (n + 1) / 60
        rw [hci, hdiv]
      · rw [g3]
        show s.time_series.map BucketOut.time = _
        rw [hts, hdiv]
      · intro _
        exact g4 (Or.inl hobs)
    · rw [if_pos (by omega : (n + 1) % 5 ≠ 0)]
      refine ⟨rfl, ?_, ?_, ?_⟩
      · show s.current_interval = (n + 1) / 60
        rw [hci, hdiv]
      · show s.time_series.map BucketOut.time = _
        rw [hts, hdiv]
      · intro hge
        show s.interval_pig_ids ≠ []
        refine hne ?_
        omega

theorem foldl_stepFrame_timeline (dist : ℚ × ℚ → ℚ × ℚ → ℚ) :
    ∀ frames : List (List Obs), (∀ f ∈ frames, f ≠ []) →
      ∀ (s : BatchState) (n : Nat), TimelineInv s n →
        TimelineInv (frames.foldl (stepFrame dist ⟨60, 60⟩) s) (n + frames.length) := by
  intro frames
  induction frames with
  | nil => intro _ s n h; simpa using h
  | cons f fs ih =>
      intro hobs s n h
      have hstep := stepFrame_timeline dist s n f (hobs f (List.mem_cons_self f fs)) h
      have := ih (fun f' hf' => hobs f' (List.mem_cons_of_mem f hf'))
        (stepFrame dist ⟨60, 60⟩ s f) (n + 1) hstep
      rw [show n + (f :: fs).length = n + 1 + fs.length from by
        simp [List.length_cons]; omega]
      exact this

theorem isEmpty_false_of_ne_nil {α : Type} (l : List α) (h : l ≠ []) :
    l.isEmpty = false := by
  cases l
  · exact absurd rfl h
  · rfl

/-- C3: over any 130-frame fps = 30 video with detections on every
frame, exactly two buckets are closed, when the raw frame counter reaches
60 ("0s") and 120 ("2s"); after all 130 frames the open bucket is
non-empty, and the final report flushes it as a third, partial bucket
"4s" -- flushed because it has members. -/
theorem C3_bucket_timeline (dist : ℚ × ℚ → ℚ × ℚ → ℚ) (frames : List (List Obs))
    (hlen : frames.length = 130) (hne : ∀ f ∈ frames, f ≠ []) :
    mkConfig 30 = ⟨60, 60⟩
    ∧ ((frames.take 60).foldl (stepFrame dist ⟨60, 60⟩) initState).time_series.map
        BucketOut.time = ["0s"]
    ∧ ((frames.take 120).foldl (stepFrame dist ⟨60, 60⟩) initState).time_series.map
        BucketOut.time = ["0s", "2s"]
    ∧ (frames.foldl (stepFrame dist ⟨60, 60⟩) initState).time_series.map
        BucketOut.time = ["0s", "2s"]
    ∧ (frames.foldl (stepFrame dist ⟨60, 60⟩) initState).interval_pig_ids ≠ []
    ∧ (analyze_video_data dist 30 frames).time_series.map BucketOut.time
        = ["0s", "2s", "4s"] := by
  have hcfg : mkConfig 30 = (⟨60, 60⟩ : Config) := by with_unfolding_all decide
  have hinit : TimelineInv initState 0 := ⟨rfl, rfl, rfl, by intro h; omega⟩
  have h60 := foldl_stepFrame_timeline dist (frames.take 60)
    (fun f hf => hne f (List.mem_of_mem_take hf)) initState 0 hinit
  have h120 := foldl_stepFrame_timeline dist (frames.take 120)
    (fun f hf => hne f (List.mem_of_mem_take hf)) initState 0 hinit
  have h130 := foldl_stepFrame_timeline dist frames hne initState 0 hinit
  rw [List.length_take, hlen] at h60 h120
  rw [hlen] at h130
  norm_num at h60 h120 h130
  refine ⟨hcfg, ?_, ?_, ?_, ?_, ?_⟩
  · rw [h60.2.2.1]
    decide
  · rw [h120.2.2.1]
    decide
  · rw [h130.2.2.1]
    decide
  · exact h130.2.2.2 (by omega)
  · simp only [analyze_video_data]
    rw [hcfg]
    have hpids : (frames.foldl (stepFrame dist ⟨60, 60⟩) initState).interval_pig_ids
        ≠ [] := h130.2.2.2 (by omega)
    have hfin : (finalize (frames.foldl (stepFrame dist ⟨60, 60⟩) initState)).time_series
        = (frames.foldl (stepFrame dist ⟨60, 60⟩) initState).time_series
          ++ [mkBucket (frames.foldl (stepFrame dist ⟨60, 60⟩) initState)] := by
      unfold finalize
      dsimp only
      rw [isEmpty_false_of_ne_nil _ hpids]
      simp
    rw [hfin, List.map_append, h130.2.2.1]
    have htime : (mkBucket (frames.foldl (stepFrame dist ⟨60, 60⟩) initState)).time
        = "4s" := by
      show toString ((frames.foldl (stepFrame dist ⟨60, 60⟩)
          initState).current_interval * 2) ++ "s" = "4s"
      rw [h130.2.1]
      decide
    simp only [List.map_cons, List.map_nil]
    rw [htime]
    decide

/-- Witness for C3: the constant 130-frame video with one pig lying
still on every frame. -/
theorem C3_bucket_timeline_witness :
    (analyze_video_data dist1 30
        (List.replicate 130 [(⟨7, 0, 0, some Behavior.Lying⟩ : Obs)])).time_series.map
      BucketOut.time = ["0s", "2s", "4s"] :=
  (C3_bucket_timeline dist1 (List.replicate 130 [(⟨7, 0, 0, some Behavior.Lying⟩ : Obs)])
    (by decide) (by decide)).2.2.2.2.2

end PigSpec
